import Mathlib

/-!
Shallow embedding of the five sorting algorithms of `src/py/sorting.py`
(`insertion_sort`, `merge_sort`, `heap_sort`, `quick_sort`, `counting_sort`),
together with proofs of the specification claims about them.

Python lists of ints are modelled as `List Int`; in-place updates become
functional `List.set`; out-of-range indexing (relevant to `quick_sort` and
`counting_sort`) is modelled in an `Except` monad with Python's
negative-index wrapping semantics.
-/

/-- Python tuple swap `a[i], a[j] = a[j], a[i]` on (already resolved)
non-negative indices: the right-hand side is read first, then both cells
are written. -/
def swapNat (a : List Int) (i j : Nat) : List Int :=
  (a.set i (a.getD j 0)).set j (a.getD i 0)

/-- The inner `while` loop of `insertion_sort`: shift elements of the sorted
prefix one slot right until the insertion point for `value` is found, then
store `value` there.  The argument is the current value of the Python
variable `j`. -/
def insertLoop (value : Int) : List Int → Nat → List Int
  | a, 0 => a.set 0 value
  | a, j+1 =>
    if a.getD j 0 > value then insertLoop value (a.set (j+1) (a.getD j 0)) j
    else a.set (j+1) value

/-- The outer `for i in range(1, n)` loop of `insertion_sort`; `fuel` is the
number of remaining iterations and `i` the current index. -/
def insertionGo : List Int → Nat → Nat → List Int
  | a, _, 0 => a
  | a, i, fuel+1 => insertionGo (insertLoop (a.getD i 0) a i) (i+1) fuel

/-- `insertion_sort` from `sorting.py`. -/
def insertion_sort (array : List Int) : List Int :=
  insertionGo array 1 (array.length - 1)

/-- Reference ordered insertion (shifting happens while the scanned element
is strictly greater than `x`, so `x` lands after equal elements). -/
def insertSorted (x : Int) : List Int → List Int
  | [] => [x]
  | y :: ys => if x < y then x :: y :: ys else y :: insertSorted x ys

/-- One step of the merge loop in `merge_sort` (lines 66-78 of the source):
returns the element appended to `sorted_list` and the updated `left`/`right`
cursors.  Note the final `else`: when neither half is exhausted and the heads
are equal, the right half's head is taken and the right cursor advances. -/
def mergeStep (ll rl : List Int) (left right : Nat) : Int × Nat × Nat :=
  if left = ll.length then (rl.getD right 0, left, right + 1)
  else if right = rl.length then (ll.getD left 0, left + 1, right)
  else if ll.getD left 0 < rl.getD right 0 then (ll.getD left 0, left + 1, right)
  else (rl.getD right 0, left, right + 1)

/-- The `for _ in range(n)` merge loop of `merge_sort`: `fuel` is the number
of remaining iterations; the produced list is `sorted_list`. -/
def mergeGo (ll rl : List Int) : Nat → Nat → Nat → List Int
  | 0, _, _ => []
  | fuel+1, left, right =>
    (mergeStep ll rl left right).1 ::
      mergeGo ll rl fuel (mergeStep ll rl left right).2.1 (mergeStep ll rl left right).2.2

/-- `merge_sort` from `sorting.py`: split at `n // 2`, recurse on copies of
the two halves, merge for exactly `n` steps. -/
def merge_sort (array : List Int) : List Int :=
  if h : array.length ≤ 1 then array
  else
    mergeGo (merge_sort (array.take (array.length / 2)))
      (merge_sort (array.drop (array.length / 2))) array.length 0 0
termination_by array.length
decreasing_by
  · simp only [List.length_take]
    omega
  · simp only [List.length_drop]
    omega

/-- State-passing model of `merge_sort` that additionally tracks the final
state of the caller's argument object.  `array[:k]` and `array[k:]` are
copies, so the recursive calls receive fresh objects, and the body performs
no write to `array`; the first component is the argument's final state. -/
def merge_sortM (array : List Int) : List Int × List Int :=
  if h : array.length ≤ 1 then (array, array)
  else
    (array,
      mergeGo (merge_sortM (array.take (array.length / 2))).2
        (merge_sortM (array.drop (array.length / 2))).2 array.length 0 0)
termination_by array.length
decreasing_by
  · simp only [List.length_take]
    omega
  · simp only [List.length_drop]
    omega

/-- Structural reference merge, with the code's tie behaviour (ties taken
from the right list). -/
def mergeRec : List Int → List Int → List Int
  | [], ys => ys
  | xs, [] => xs
  | x :: xs, y :: ys =>
    if x < y then x :: mergeRec xs (y :: ys) else y :: mergeRec (x :: xs) ys
termination_by xs ys => xs.length + ys.length

/-- The `largest` computed by `_max_heapify` (lines 105-112 of the source):
`largest = i`, replaced by the left child `2*i` and then the right child
`2*i+1` whenever the child is in bounds and strictly larger than the current
`largest`. -/
def heapifyLargest (heap : List Int) (i : Nat) : Nat :=
  if 2 * i < heap.length ∧ heap.getD (2 * i) 0 > heap.getD i 0 then
    if 2 * i + 1 < heap.length ∧ heap.getD (2 * i + 1) 0 > heap.getD (2 * i) 0 then 2 * i + 1
    else 2 * i
  else
    if 2 * i + 1 < heap.length ∧ heap.getD (2 * i + 1) 0 > heap.getD i 0 then 2 * i + 1
    else i

/-- `_max_heapify` from `sorting.py`: sift the value at `i` down, swapping
with the largest child while some child is strictly larger. -/
def _max_heapify (heap : List Int) (i : Nat) : List Int :=
  if h : heapifyLargest heap i ≠ i then
    _max_heapify (swapNat heap i (heapifyLargest heap i)) (heapifyLargest heap i)
  else heap
termination_by heap.length - i
decreasing_by
  have hlen : (swapNat heap i (heapifyLargest heap i)).length = heap.length := by
    simp [swapNat]
  have hb : i < heapifyLargest heap i ∧ heapifyLargest heap i < heap.length := by
    revert h
    unfold heapifyLargest
    split_ifs with h1 h2 h3 <;> intro h <;> omega
  omega

/-- The `for i in range(n//2 + 1, -1, -1)` loop of `_build_max_heap`; the
argument is the current index. -/
def _build_max_heapGo : List Int → Nat → List Int
  | a, 0 => _max_heapify a 0
  | a, i+1 => _build_max_heapGo (_max_heapify a (i+1)) i

/-- `_build_max_heap` from `sorting.py`. -/
def _build_max_heap (array : List Int) : List Int :=
  _build_max_heapGo array (array.length / 2 + 1)

/-- The `for i in range(n-1, -1, -1)` extraction loop of `heap_sort`,
tracking aliasing with the caller's list object: `caller` is the state of
the object the caller passed in, `arr` the value currently bound to the
local variable `array`, and `al` records whether `array` still aliases the
caller's object.  Each iteration swaps `array[0]` and `array[i]` (mutating
the caller's object while aliased) and then rebinds `array` to the fresh
list `_max_heapify(array[:i], 0) + old_array[i:]`, breaking the alias. -/
def heapExtractLoop : List Int → List Int → Bool → Nat → List Int × List Int
  | caller, arr, _, 0 => (caller, arr)
  | caller, arr, al, k+1 =>
    heapExtractLoop (if al then swapNat arr 0 k else caller)
      (_max_heapify ((swapNat arr 0 k).take k) 0 ++ (swapNat arr 0 k).drop k) false k

/-- `heap_sort` from `sorting.py`, with the caller's object tracked: the
first component is the final state of the list the caller passed in, the
second the returned list. -/
def heap_sortM (array : List Int) : List Int × List Int :=
  heapExtractLoop (_build_max_heap array) (_build_max_heap array) true array.length

/-- The value `heap_sort` returns. -/
def heap_sort (array : List Int) : List Int :=
  (heap_sortM array).2

/-- Strict descendant-or-self relation of the heap tree actually used by the
code: the children of `j` are `2*j` and `2*j+1`, restricted to strictly
larger indices (so `0`'s only child is `1`). -/
inductive Desc : Nat → Nat → Prop
  | refl (i : Nat) : Desc i i
  | step {i j k : Nat} : Desc i j → (k = 2 * j ∨ k = 2 * j + 1) → j < k → Desc i k

/-- The subtree rooted at `i` satisfies the max-heap property. -/
def SubHeap (a : List Int) (i : Nat) : Prop :=
  ∀ j k : Nat, Desc i j → (k = 2 * j ∨ k = 2 * j + 1) → j < k → k < a.length →
    a.getD k 0 ≤ a.getD j 0

/-- Python runtime errors relevant to this embedding. -/
inductive PyErr
  | indexError
  | valueError
deriving DecidableEq

/-- Python index resolution for a list of length `n`: indices in `[0, n)`
are used as is, indices in `[-n, 0)` wrap to `n + i`, anything else raises
`IndexError`. -/
def pyIdx (n : Nat) (i : Int) : Option Nat :=
  if 0 ≤ i ∧ i < (n : Int) then some i.toNat
  else if -(n : Int) ≤ i ∧ i < 0 then some (i + n).toNat
  else none

/-- Python list read `a[i]`. -/
def pyGet (a : List Int) (i : Int) : Except PyErr Int :=
  match pyIdx a.length i with
  | some k => Except.ok (a.getD k 0)
  | none => Except.error PyErr.indexError

/-- Python list write `a[i] = v`. -/
def pySet (a : List Int) (i : Int) (v : Int) : Except PyErr (List Int) :=
  match pyIdx a.length i with
  | some k => Except.ok (a.set k v)
  | none => Except.error PyErr.indexError

/-- Python tuple swap `a[i], a[j] = a[j], a[i]`: the right-hand tuple
`(a[j], a[i])` is read first, then `a[i]` and `a[j]` are assigned. -/
def pySwap (a : List Int) (i j : Int) : Except PyErr (List Int) :=
  match pyGet a j, pyGet a i with
  | Except.ok vj, Except.ok vi =>
    match pySet a i vj with
    | Except.ok a1 => pySet a1 j vi
    | Except.error err => Except.error err
  | Except.error err, _ => Except.error err
  | _, Except.error err => Except.error err

/-- `a[k]` at an already-validated non-negative index. -/
def getI (a : List Int) (k : Int) : Int :=
  a.getD k.toNat 0

/-- The `for j in range(start, end)` loop of `_partition`: `i` is the
boundary index, `j` the scan index, `c` the number of remaining iterations.
Elements `≤ x` are swapped just after the boundary, which then advances. -/
def partLoop (x : Int) : List Int → Int → Int → Nat → Except PyErr (List Int × Int)
  | a, i, _, 0 => Except.ok (a, i)
  | a, i, j, c+1 =>
    match pyGet a j with
    | Except.error err => Except.error err
    | Except.ok aj =>
      if aj ≤ x then
        match pySwap a (i+1) j with
        | Except.error err => Except.error err
        | Except.ok a2 => partLoop x a2 (i+1) (j+1) c
      else partLoop x a i (j+1) c

/-- `_partition` from `sorting.py`.  `randint(start, end)` is modelled by
`start + r % (end - start + 1)` for an arbitrary oracle value `r` (as `r`
ranges over `Nat` this realises every choice in `[start, end]`; `_partition`
is only ever called with `start < end`, where `randint` cannot fail). -/
def _partition (a : List Int) (s e : Int) (r : Nat) : Except PyErr (List Int × Int) :=
  match pySwap a (s + (r : Int) % (e - s + 1)) e with
  | Except.error err => Except.error err
  | Except.ok a0 =>
    match pyGet a0 e with
    | Except.error err => Except.error err
    | Except.ok x =>
      match partLoop x a0 (s - 1) s (e - s).toNat with
      | Except.error err => Except.error err
      | Except.ok (a1, i) =>
        match pySwap a1 (i + 1) e with
        | Except.error err => Except.error err
        | Except.ok a2 => Except.ok (a2, i + 1)

/-- `quick_sort` from `sorting.py`, with explicit `start`/`end`.  The random
pivot choices are supplied by the oracle `σ`, indexed by the recursion path
(`false` for the left recursive call, `true` for the right one), so that a
single `σ` fixes every choice of the run and every possible sequence of
choices is realised by some `σ`. -/
def quick_sort (a : List Int) (s e : Int) (σ : List Bool → Nat) (path : List Bool) :
    Except PyErr (List Int) :=
  if hlt : s < e then
    match hp : _partition a s e (σ path) with
    | Except.error err => Except.error err
    | Except.ok (a1, piv) =>
      match quick_sort a1 s (piv - 1) σ (false :: path) with
      | Except.error err => Except.error err
      | Except.ok a2 => quick_sort a2 (piv + 1) e σ (true :: path)
  else Except.ok a
termination_by (e - s).toNat
decreasing_by
  all_goals (
    have hb : ∀ (c : Nat) (x : Int) (aa : List Int) (ii jj : Int) (res : List Int × Int),
        partLoop x aa ii jj c = Except.ok res → ii ≤ res.2 ∧ res.2 ≤ ii + c := by
      intro c
      induction c with
      | zero =>
        intro x aa ii jj res hres
        simp only [partLoop, Except.ok.injEq] at hres
        rw [← hres]
        exact ⟨le_refl _, by omega⟩
      | succ c ih =>
        intro x aa ii jj res hres
        cases hg : pyGet aa jj with
        | error err => simp [partLoop, hg] at hres
        | ok aj =>
          by_cases hle : aj ≤ x
          · cases hs : pySwap aa (ii+1) jj with
            | error err => simp [partLoop, hg, hs, hle] at hres
            | ok a2 =>
              simp only [partLoop, hg, hs, if_pos hle] at hres
              have := ih x a2 (ii+1) (jj+1) res hres
              omega
          · simp only [partLoop, hg, if_neg hle] at hres
            have := ih x aa ii (jj+1) res hres
            omega
    cases hsw : pySwap a (s + (σ path : Int) % (e - s + 1)) e with
    | error err => simp [_partition, hsw] at hp
    | ok a0 =>
      cases hg : pyGet a0 e with
      | error err => simp [_partition, hsw, hg] at hp
      | ok x =>
        cases hl : partLoop x a0 (s - 1) s (e - s).toNat with
        | error err => simp [_partition, hsw, hg, hl] at hp
        | ok res =>
          obtain ⟨a1', i'⟩ := res
          cases hs2 : pySwap a1' (i' + 1) e with
          | error err => simp [_partition, hsw, hg, hl, hs2] at hp
          | ok a2' =>
            simp only [_partition, hsw, hg, hl, hs2, Except.ok.injEq, Prod.mk.injEq] at hp
            have hbnd := hb _ _ _ _ _ _ hl
            simp only at hbnd
            omega)

/-- `quick_sort` called with the default `start`/`end` arguments
(`start = 0`, `end = len(array) - 1`). -/
def quick_sortD (a : List Int) (σ : List Bool → Nat) : Except PyErr (List Int) :=
  quick_sort a 0 ((a.length : Int) - 1) σ []

/-- The contiguous segment of `a` at positions `[s, e]` (for `0 ≤ s`). -/
def seg (a : List Int) (s e : Int) : List Int :=
  (a.drop s.toNat).take (e + 1 - s).toNat

/-- Python `min` of a list (meaningful only for non-empty input). -/
def pyMin : List Int → Int
  | [] => 0
  | x :: xs => xs.foldl min x

/-- Python `max` of a list (meaningful only for non-empty input). -/
def pyMax : List Int → Int
  | [] => 0
  | x :: xs => xs.foldl max x

/-- `shift = abs(min(min(input_array), 0))` from `counting_sort`. -/
def cs_shift (input : List Int) : Int :=
  |min (pyMin input) 0|

/-- `K = max(input_array) + shift` from `counting_sort`. -/
def cs_K (input : List Int) : Int :=
  pyMax input + cs_shift input

/-- The first loop of `counting_sort`
(`for i in range(0, N): temp_array[input_array[i] + shift] += 1`),
parameterised by the list accessors; `i` is the current index and `c` the
number of remaining iterations. -/
def csLoop1 (getf : List Int → Int → Except PyErr Int)
    (setf : List Int → Int → Int → Except PyErr (List Int))
    (input : List Int) (sh : Int) : Nat → Nat → List Int → Except PyErr (List Int)
  | _, 0, temp => Except.ok temp
  | i, c+1, temp =>
    match getf input (i : Int) with
    | Except.error err => Except.error err
    | Except.ok e =>
      match getf temp (e + sh) with
      | Except.error err => Except.error err
      | Except.ok tv =>
        match setf temp (e + sh) (tv + 1) with
        | Except.error err => Except.error err
        | Except.ok temp2 => csLoop1 getf setf input sh (i+1) c temp2

/-- The second loop of `counting_sort`
(`for j in range(1, K + 1): temp_array[j] += temp_array[j-1]`). -/
def csLoop2 (getf : List Int → Int → Except PyErr Int)
    (setf : List Int → Int → Int → Except PyErr (List Int)) :
    Nat → Nat → List Int → Except PyErr (List Int)
  | _, 0, temp => Except.ok temp
  | j, c+1, temp =>
    match getf temp (j : Int) with
    | Except.error err => Except.error err
    | Except.ok tj =>
      match getf temp ((j : Int) - 1) with
      | Except.error err => Except.error err
      | Except.ok tjm =>
        match setf temp (j : Int) (tj + tjm) with
        | Except.error err => Except.error err
        | Except.ok temp2 => csLoop2 getf setf (j+1) c temp2

/-- The third loop of `counting_sort`
(`for k in range(N - 1, -1, -1): element = input_array[k];
output_array[temp_array[element + shift] - 1] = element;
temp_array[element + shift] -= 1`); the counter is one above the current
index. -/
def csLoop3 (getf : List Int → Int → Except PyErr Int)
    (setf : List Int → Int → Int → Except PyErr (List Int))
    (input : List Int) (sh : Int) : Nat → List Int → List Int →
    Except PyErr (List Int × List Int)
  | 0, temp, out => Except.ok (temp, out)
  | k+1, temp, out =>
    match getf input (k : Int) with
    | Except.error err => Except.error err
    | Except.ok e =>
      match getf temp (e + sh) with
      | Except.error err => Except.error err
      | Except.ok tv =>
        match setf out (tv - 1) e with
        | Except.error err => Except.error err
        | Except.ok out2 =>
          match getf temp (e + sh) with
          | Except.error err => Except.error err
          | Except.ok tv2 =>
            match setf temp (e + sh) (tv2 - 1) with
            | Except.error err => Except.error err
            | Except.ok temp2 => csLoop3 getf setf input sh k temp2 out2

/-- `counting_sort` from `sorting.py`, parameterised by the list accessors
(so the same transcription can be run with Python's wrapping index semantics
or with strict bounds checking). -/
def counting_sortG (getf : List Int → Int → Except PyErr Int)
    (setf : List Int → Int → Int → Except PyErr (List Int))
    (input_array : List Int) : Except PyErr (List Int) :=
  if input_array.length = 0 then Except.ok []
  else
    match csLoop1 getf setf input_array (cs_shift input_array) 0 input_array.length
      (List.replicate (cs_K input_array + 1).toNat 0) with
    | Except.error err => Except.error err
    | Except.ok t1 =>
      match csLoop2 getf setf 1 (cs_K input_array).toNat t1 with
      | Except.error err => Except.error err
      | Except.ok t2 =>
        match csLoop3 getf setf input_array (cs_shift input_array)
          input_array.length t2 (List.replicate input_array.length 0) with
        | Except.error err => Except.error err
        | Except.ok (_, out) => Except.ok out

/-- Strict index resolution: no negative-index wrapping. -/
def pyIdxS (n : Nat) (i : Int) : Option Nat :=
  if 0 ≤ i ∧ i < (n : Int) then some i.toNat else none

/-- Strict list read: errors unless `0 ≤ i < len`. -/
def pyGetS (a : List Int) (i : Int) : Except PyErr Int :=
  match pyIdxS a.length i with
  | some k => Except.ok (a.getD k 0)
  | none => Except.error PyErr.indexError

/-- Strict list write: errors unless `0 ≤ i < len`. -/
def pySetS (a : List Int) (i : Int) (v : Int) : Except PyErr (List Int) :=
  match pyIdxS a.length i with
  | some k => Except.ok (a.set k v)
  | none => Except.error PyErr.indexError

/-- `counting_sort` with Python's indexing semantics. -/
def counting_sort (input_array : List Int) : Except PyErr (List Int) :=
  counting_sortG pyGet pySet input_array

/-- `counting_sort` with strict (no-wrap) indexing. -/
def counting_sortS (input_array : List Int) : Except PyErr (List Int) :=
  counting_sortG pyGetS pySetS input_array

/-- The accessor pair behaves as plain list read/write on in-range indices. -/
def GoodAcc (getf : List Int → Int → Except PyErr Int)
    (setf : List Int → Int → Int → Except PyErr (List Int)) : Prop :=
  (∀ (a : List Int) (i : Int), 0 ≤ i → i < (a.length : Int) →
    getf a i = Except.ok (a.getD i.toNat 0)) ∧
  (∀ (a : List Int) (i : Int) (v : Int), 0 ≤ i → i < (a.length : Int) →
    setf a i v = Except.ok (a.set i.toNat v))

/-- Number of elements of `l` whose shifted value is `v`. -/
def cntSh (sh : Int) (v : Nat) (l : List Int) : Nat :=
  List.countP (fun y => decide (y + sh = (v : Int))) l

/-- Prefix sums of a count table. -/
def psum (t : List Int) : Nat → Int
  | 0 => t.getD 0 0
  | v+1 => psum t v + t.getD (v+1) 0

/-- Number of occurrences in the input of the shifted value `v`
(the final contents of `temp_array[v]` after the first loop). -/
def shiftCount (input : List Int) (v : Nat) : Int :=
  (cntSh (cs_shift input) v input : Int)

/-- Cumulative counts (the final contents of `temp_array[v]` after the
second loop). -/
def shiftCum (input : List Int) : Nat → Int
  | 0 => shiftCount input 0
  | v+1 => shiftCum input v + shiftCount input (v+1)

/-- The positional characterisation of `counting_sort`'s output: for every
shifted value `v`, the block of positions `[cum v - count v, cum v)` holds
the value `v - shift`. -/
def CsOutChar (input out : List Int) : Prop :=
  ∀ v : Nat, v < (cs_K input + 1).toNat → ∀ p : Nat, p < input.length →
    shiftCum input v - shiftCount input v ≤ (p : Int) → (p : Int) < shiftCum input v →
    out.getD p 0 = (v : Int) - cs_shift input

theorem getD_set_self (a : List Int) (i : Nat) (v : Int) (h : i < a.length) :
    (a.set i v).getD i 0 = v := by
  rw [List.getD_eq_getElem?_getD, List.getElem?_set_self h]
  rfl

theorem getD_set_ne (a : List Int) {i j : Nat} (v : Int) (h : i ≠ j) :
    (a.set i v).getD j 0 = a.getD j 0 := by
  rw [List.getD_eq_getElem?_getD, List.getElem?_set_ne h, ← List.getD_eq_getElem?_getD]

theorem take_set_of_le (a : List Int) {n i : Nat} (v : Int) (h : n ≤ i) :
    (a.set i v).take n = a.take n := by
  apply List.ext_getElem
  · simp
  · intro k h1 h2
    simp only [List.length_take, List.length_set] at h1
    rw [List.getElem_take, List.getElem_take, List.getElem_set_ne (by omega)]

theorem drop_set_of_lt (a : List Int) {n i : Nat} (v : Int) (h : i < n) :
    (a.set i v).drop n = a.drop n := by
  apply List.ext_getElem
  · simp
  · intro k h1 h2
    rw [List.getElem_drop, List.getElem_drop, List.getElem_set_ne (by omega)]

theorem drop_set_self (a : List Int) {i : Nat} (v : Int) (h : i < a.length) :
    (a.set i v).drop i = v :: a.drop (i+1) := by
  rw [List.drop_eq_getElem_cons (by simpa using h)]
  rw [List.getElem_set_self, drop_set_of_lt a v (Nat.lt_succ_self i)]

theorem getD_eq_getElem_of_lt (a : List Int) {i : Nat} (h : i < a.length) :
    a.getD i 0 = a[i] := List.getD_eq_getElem a 0 h

theorem take_succ_getD (a : List Int) {j : Nat} (h : j < a.length) :
    a.take (j+1) = a.take j ++ [a.getD j 0] := by
  rw [List.take_succ, List.getElem?_eq_getElem h, getD_eq_getElem_of_lt a h]
  rfl

theorem insertSorted_append_gt (x z : Int) (h : x < z) (p : List Int) :
    insertSorted x (p ++ [z]) = insertSorted x p ++ [z] := by
  induction p with
  | nil => simp [insertSorted, if_pos h]
  | cons y ys ih =>
    show insertSorted x (y :: (ys ++ [z])) = insertSorted x (y :: ys) ++ [z]
    by_cases hxy : x < y
    · simp only [insertSorted, if_pos hxy]
      rfl
    · simp only [insertSorted, if_neg hxy, ih]
      rfl

theorem insertSorted_append_le (x z : Int) (hz : ¬ x < z) (p : List Int)
    (hp : ∀ y ∈ p, ¬ x < y) : insertSorted x (p ++ [z]) = p ++ [z, x] := by
  induction p with
  | nil => simp [insertSorted, if_neg hz]
  | cons y ys ih =>
    show insertSorted x (y :: (ys ++ [z])) = y :: (ys ++ [z, x])
    simp only [insertSorted, if_neg (hp y (by simp))]
    rw [ih (fun b hb => hp b (by simp [hb]))]

theorem insertSorted_perm (x : Int) (l : List Int) : (insertSorted x l).Perm (x :: l) := by
  induction l with
  | nil => simp [insertSorted]
  | cons y ys ih =>
    simp only [insertSorted]
    by_cases hxy : x < y
    · rw [if_pos hxy]
    · rw [if_neg hxy]
      exact (ih.cons y).trans (List.Perm.swap x y ys)

theorem insertSorted_length (x : Int) (l : List Int) :
    (insertSorted x l).length = l.length + 1 := by
  simpa using (insertSorted_perm x l).length_eq

theorem insertSorted_sorted (x : Int) (l : List Int) (h : List.Sorted (· ≤ ·) l) :
    List.Sorted (· ≤ ·) (insertSorted x l) := by
  induction l with
  | nil => simp [insertSorted]
  | cons y ys ih =>
    rw [List.sorted_cons] at h
    simp only [insertSorted]
    by_cases hxy : x < y
    · rw [if_pos hxy, List.sorted_cons, List.sorted_cons]
      refine ⟨fun b hb => ?_, h.1, h.2⟩
      rcases List.mem_cons.mp hb with hb | hb
      · omega
      · exact le_of_lt (lt_of_lt_of_le hxy (h.1 b hb))
    · rw [if_neg hxy, List.sorted_cons]
      refine ⟨fun b hb => ?_, ih h.2⟩
      rcases List.mem_cons.mp ((insertSorted_perm x ys).mem_iff.mp hb) with hb | hb
      · omega
      · exact h.1 b hb

theorem sorted_take_of_sorted_take_succ {a : List Int} {j : Nat}
    (h : List.Sorted (· ≤ ·) (a.take (j+1))) : List.Sorted (· ≤ ·) (a.take j) := by
  have hsub : (a.take j).Sublist (a.take (j+1)) := by
    rw [show a.take j = (a.take (j+1)).take j by rw [List.take_take]; congr 1; omega]
    exact List.take_sublist _ _
  exact List.Pairwise.sublist hsub h

/-- The inner insertion loop computes an ordered insert of `value` into the
sorted prefix of length `j`, leaving positions `> j` untouched. -/
theorem insertLoop_eq (value : Int) :
    ∀ (j : Nat) (a : List Int), j < a.length → List.Sorted (· ≤ ·) (a.take j) →
      insertLoop value a j = insertSorted value (a.take j) ++ a.drop (j+1)
  | 0, a, h, _ => by
    cases a with
    | nil => simp at h
    | cons x t => simp [insertLoop, insertSorted]
  | j+1, a, h, hs => by
    have hj : j < a.length := by omega
    have htk : a.take (j+1) = a.take j ++ [a.getD j 0] := take_succ_getD a hj
    simp only [insertLoop]
    by_cases hcmp : a.getD j 0 > value
    · rw [if_pos hcmp]
      have hlen : j < (a.set (j+1) (a.getD j 0)).length := by simp; omega
      have htk2 : (a.set (j+1) (a.getD j 0)).take j = a.take j :=
        take_set_of_le a _ (by omega)
      have hs2 : List.Sorted (· ≤ ·) ((a.set (j+1) (a.getD j 0)).take j) := by
        rw [htk2]; exact sorted_take_of_sorted_take_succ (htk ▸ hs)
      rw [insertLoop_eq value j _ hlen hs2, htk2,
        drop_set_self a _ (by omega), htk, insertSorted_append_gt value _ hcmp]
      simp
    · rw [if_neg hcmp]
      have hset : a.set (j+1) value = a.take (j+1) ++ value :: a.drop (j+2) := by
        rw [List.set_eq_take_append_cons_drop, if_pos h]
      have hle : ∀ y ∈ a.take j, ¬ value < y := by
        intro y hy
        have : y ≤ a.getD j 0 := by
          rw [htk] at hs
          rw [List.Sorted, List.pairwise_append] at hs
          exact hs.2.2 y hy _ (by simp)
        omega
      rw [hset, htk, insertSorted_append_le value _ hcmp _ hle]
      simp

/-- Invariant proof for the outer loop of `insertion_sort`. -/
theorem insertionGo_spec :
    ∀ (fuel i : Nat) (a : List Int), i + fuel = a.length → 1 ≤ i →
      List.Sorted (· ≤ ·) (a.take i) →
      (insertionGo a i fuel).Perm a ∧ List.Sorted (· ≤ ·) (insertionGo a i fuel)
  | 0, i, a, hlen, _, hs => by
    have : a.take i = a := List.take_of_length_le (by omega)
    exact ⟨List.Perm.refl a, by rwa [this] at hs⟩
  | fuel+1, i, a, hlen, hi, hs => by
    have hilt : i < a.length := by omega
    set v := a.getD i 0 with hv
    have heq : insertLoop v a i = insertSorted v (a.take i) ++ a.drop (i+1) :=
      insertLoop_eq v i a hilt hs
    have hperm : (insertLoop v a i).Perm a := by
      rw [heq]
      have h1 : (insertSorted v (a.take i) ++ a.drop (i+1)).Perm
          ((v :: a.take i) ++ a.drop (i+1)) := (insertSorted_perm v _).append_right _
      have h4 : a.take i ++ v :: a.drop (i+1) = a := by
        rw [hv, getD_eq_getElem_of_lt a hilt, ← List.drop_eq_getElem_cons hilt,
          List.take_append_drop]
      have h3 : (a.take i ++ v :: a.drop (i+1)).Perm
          (v :: (a.take i ++ a.drop (i+1))) := List.perm_middle
      rw [h4] at h3
      exact h1.trans h3.symm
    have hlen2 : (i+1) + fuel = (insertLoop v a i).length := by
      rw [hperm.length_eq]; omega
    have htake : (insertLoop v a i).take (i+1) = insertSorted v (a.take i) := by
      rw [heq]
      have : (insertSorted v (a.take i)).length = i + 1 := by
        rw [insertSorted_length, List.length_take]; omega
      rw [← this, List.take_left]
    have hs2 : List.Sorted (· ≤ ·) ((insertLoop v a i).take (i+1)) := by
      rw [htake]
      exact insertSorted_sorted v _ hs
    simp only [insertionGo]
    obtain ⟨p, s⟩ := insertionGo_spec fuel (i+1) (insertLoop v a i) hlen2 (by omega) hs2
    exact ⟨p.trans hperm, s⟩

/-- `insertion_sort` returns a sorted permutation of its input. -/
theorem insertion_sort_spec (a : List Int) :
    (insertion_sort a).Perm a ∧ List.Sorted (· ≤ ·) (insertion_sort a) := by
  cases a with
  | nil => exact ⟨List.Perm.refl _, by simp [insertion_sort, insertionGo]⟩
  | cons x t =>
    have h1 : (1 : Nat) + ((x :: t).length - 1) = (x :: t).length := by
      simp only [List.length_cons]; omega
    have hs : List.Sorted (· ≤ ·) ((x :: t).take 1) := by
      simp [List.take_one]
    exact insertionGo_spec ((x :: t).length - 1) 1 (x :: t) h1 (le_refl 1) hs

theorem mergeRec_nil_left (ys : List Int) : mergeRec [] ys = ys := by
  cases ys <;> simp [mergeRec]

theorem mergeRec_nil_right (xs : List Int) : mergeRec xs [] = xs := by
  cases xs <;> simp [mergeRec]

theorem mergeRec_cons_cons (x y : Int) (xs ys : List Int) :
    mergeRec (x :: xs) (y :: ys) =
      if x < y then x :: mergeRec xs (y :: ys) else y :: mergeRec (x :: xs) ys := by
  simp [mergeRec]

/-- With the exact fuel used by the code (`n` iterations for cursors starting
at `left`, `right`), the index-based merge loop computes the structural merge
of the two unread suffixes. -/
theorem mergeGo_eq_mergeRec (ll rl : List Int) :
    ∀ (fuel left right : Nat), left ≤ ll.length → right ≤ rl.length →
      fuel = (ll.length - left) + (rl.length - right) →
      mergeGo ll rl fuel left right = mergeRec (ll.drop left) (rl.drop right)
  | 0, left, right, hl, hr, hf => by
    have h1 : left = ll.length := by omega
    have h2 : right = rl.length := by omega
    simp [mergeGo, h1, h2, mergeRec_nil_left]
  | fuel+1, left, right, hl, hr, hf => by
    simp only [mergeGo]
    by_cases h1 : left = ll.length
    · have hrlt : right < rl.length := by omega
      simp only [mergeStep, if_pos h1]
      rw [mergeGo_eq_mergeRec ll rl fuel left (right+1) hl (by omega) (by omega)]
      rw [h1, List.drop_length, mergeRec_nil_left, mergeRec_nil_left,
        List.drop_eq_getElem_cons hrlt, getD_eq_getElem_of_lt rl hrlt]
    · have hllt : left < ll.length := by omega
      by_cases h2 : right = rl.length
      · simp only [mergeStep, if_neg h1, if_pos h2]
        rw [mergeGo_eq_mergeRec ll rl fuel (left+1) right (by omega) hr (by omega)]
        rw [h2, List.drop_length, mergeRec_nil_right, mergeRec_nil_right,
          List.drop_eq_getElem_cons hllt, getD_eq_getElem_of_lt ll hllt]
      · have hrlt : right < rl.length := by omega
        rw [List.drop_eq_getElem_cons hllt, List.drop_eq_getElem_cons hrlt,
          mergeRec_cons_cons]
        simp only [mergeStep, if_neg h1, if_neg h2,
          getD_eq_getElem_of_lt ll hllt, getD_eq_getElem_of_lt rl hrlt]
        by_cases h3 : ll[left] < rl[right]
        · rw [if_pos h3, if_pos h3]
          rw [mergeGo_eq_mergeRec ll rl fuel (left+1) right (by omega) hr (by omega)]
          rw [List.drop_eq_getElem_cons hrlt]
        · rw [if_neg h3, if_neg h3]
          rw [mergeGo_eq_mergeRec ll rl fuel left (right+1) hl (by omega) (by omega)]
          rw [List.drop_eq_getElem_cons hllt]

theorem mergeRec_perm : ∀ xs ys : List Int, (mergeRec xs ys).Perm (xs ++ ys)
  | [], ys => by simp [mergeRec_nil_left]
  | x :: xs, [] => by simp [mergeRec_nil_right]
  | x :: xs, y :: ys => by
    rw [mergeRec_cons_cons]
    by_cases h : x < y
    · rw [if_pos h]
      exact ((mergeRec_perm xs (y :: ys)).cons x)
    · rw [if_neg h]
      have h1 := (mergeRec_perm (x :: xs) ys).cons y
      exact h1.trans List.perm_middle.symm
termination_by xs ys => xs.length + ys.length

theorem mergeRec_sorted : ∀ xs ys : List Int, List.Sorted (· ≤ ·) xs →
    List.Sorted (· ≤ ·) ys → List.Sorted (· ≤ ·) (mergeRec xs ys)
  | [], ys, _, hy => by simpa [mergeRec_nil_left] using hy
  | x :: xs, [], hx, _ => by simpa [mergeRec_nil_right] using hx
  | x :: xs, y :: ys, hx, hy => by
    rw [List.sorted_cons] at hx hy
    rw [mergeRec_cons_cons]
    by_cases h : x < y
    · rw [if_pos h, List.sorted_cons]
      refine ⟨fun b hb => ?_, mergeRec_sorted xs (y :: ys) hx.2 (List.sorted_cons.mpr hy)⟩
      rcases List.mem_append.mp ((mergeRec_perm xs (y :: ys)).mem_iff.mp hb) with hb | hb
      · exact hx.1 b hb
      · rcases List.mem_cons.mp hb with hb | hb
        · omega
        · have := hy.1 b hb
          omega
    · rw [if_neg h, List.sorted_cons]
      refine ⟨fun b hb => ?_, mergeRec_sorted (x :: xs) ys (List.sorted_cons.mpr hx) hy.2⟩
      rcases List.mem_append.mp ((mergeRec_perm (x :: xs) ys).mem_iff.mp hb) with hb | hb
      · rcases List.mem_cons.mp hb with hb | hb
        · omega
        · have := hx.1 b hb
          omega
      · exact hy.1 b hb
termination_by xs ys => xs.length + ys.length

/-- `merge_sort` returns a sorted permutation of its input. -/
theorem merge_sort_spec (a : List Int) :
    (merge_sort a).Perm a ∧ List.Sorted (· ≤ ·) (merge_sort a) := by
  by_cases h : a.length ≤ 1
  · rw [merge_sort, dif_pos h]
    refine ⟨List.Perm.refl a, ?_⟩
    match a with
    | [] => simp
    | [x] => simp
  · rw [merge_sort, dif_neg h]
    have hl := merge_sort_spec (a.take (a.length / 2))
    have hr := merge_sort_spec (a.drop (a.length / 2))
    have hlen : a.length = ((merge_sort (a.take (a.length / 2))).length - 0) +
        ((merge_sort (a.drop (a.length / 2))).length - 0) := by
      rw [hl.1.length_eq, hr.1.length_eq, List.length_take, List.length_drop]
      omega
    rw [mergeGo_eq_mergeRec _ _ _ 0 0 (by omega) (by omega) hlen, List.drop_zero,
      List.drop_zero]
    constructor
    · refine (mergeRec_perm _ _).trans ?_
      refine ((hl.1.append hr.1).trans ?_)
      rw [List.take_append_drop]
    · exact mergeRec_sorted _ _ hl.2 hr.2
termination_by a.length
decreasing_by
  · simp only [List.length_take]
    omega
  · simp only [List.length_drop]
    omega

/-- `merge_sort` never writes to its argument: the caller's object is
unchanged when the call returns. -/
theorem merge_sortM_pure (a : List Int) : (merge_sortM a).1 = a := by
  rw [merge_sortM]
  by_cases h : a.length ≤ 1
  · rw [dif_pos h]
  · rw [dif_neg h]

theorem swapNat_length (a : List Int) (i j : Nat) :
    (swapNat a i j).length = a.length := by
  simp [swapNat]

theorem set_getD_self_eq (a : List Int) {i : Nat} (h : i < a.length) :
    a.set i (a.getD i 0) = a := by
  apply List.ext_getElem
  · simp
  · intro k h1 h2
    by_cases hk : i = k
    · subst hk
      rw [List.getElem_set_self, getD_eq_getElem_of_lt a h]
    · rw [List.getElem_set_ne hk]

theorem swapNat_same (a : List Int) {i : Nat} (h : i < a.length) :
    swapNat a i i = a := by
  unfold swapNat
  rw [set_getD_self_eq a h]
  rw [set_getD_self_eq a h]

theorem getD_swapNat_fst (a : List Int) {i j : Nat} (hi : i < a.length) (hj : j < a.length) :
    (swapNat a i j).getD i 0 = a.getD j 0 := by
  by_cases hij : i = j
  · subst hij
    rw [swapNat_same a hi]
  · unfold swapNat
    rw [getD_set_ne _ _ (fun hh => hij hh.symm), getD_set_self a i _ hi]

theorem getD_swapNat_snd (a : List Int) {i j : Nat} (hi : i < a.length) (hj : j < a.length) :
    (swapNat a i j).getD j 0 = a.getD i 0 := by
  unfold swapNat
  rw [getD_set_self _ j _ (by simpa using hj)]

theorem getD_swapNat_other (a : List Int) {i j p : Nat} (hpi : p ≠ i) (hpj : p ≠ j) :
    (swapNat a i j).getD p 0 = a.getD p 0 := by
  unfold swapNat
  rw [getD_set_ne _ _ (fun hh => hpj hh.symm), getD_set_ne _ _ (fun hh => hpi hh.symm)]

theorem count_set_add (a : List Int) {i : Nat} (v w : Int) (h : i < a.length) :
    (a.set i v).count w + (if a.getD i 0 = w then 1 else 0)
      = a.count w + (if v = w then 1 else 0) := by
  have hset : a.set i v = a.take i ++ v :: a.drop (i+1) := by
    rw [List.set_eq_take_append_cons_drop, if_pos h]
  have ha : a = a.take i ++ a.getD i 0 :: a.drop (i+1) := by
    rw [getD_eq_getElem_of_lt a h, ← List.drop_eq_getElem_cons h, List.take_append_drop]
  rw [hset]
  conv_rhs => rw [ha]
  simp only [List.count_append, List.count_cons, beq_iff_eq]
  omega

theorem swapNat_perm (a : List Int) {i j : Nat} (hi : i < a.length) (hj : j < a.length) :
    (swapNat a i j).Perm a := by
  by_cases hij : i = j
  · subst hij
    rw [swapNat_same a hi]
  · rw [List.perm_iff_count]
    intro w
    have e1 := count_set_add (a.set i (a.getD j 0)) (a.getD i 0) w
      (i := j) (by simpa using hj)
    have e2 := count_set_add a (a.getD j 0) w (i := i) hi
    rw [getD_set_ne a _ hij] at e1
    unfold swapNat
    omega

theorem Desc.le {i j : Nat} (h : Desc i j) : i ≤ j := by
  induction h with
  | refl => exact le_refl _
  | step _ _ hlt ih => omega

theorem Desc.trans {i j k : Nat} (h1 : Desc i j) (h2 : Desc j k) : Desc i k := by
  induction h2 with
  | refl => exact h1
  | step _ hc hlt ih => exact Desc.step ih hc hlt

theorem desc_child {i k : Nat} (hc : k = 2 * i ∨ k = 2 * i + 1) (hlt : i < k) : Desc i k :=
  Desc.step (Desc.refl i) hc hlt

theorem desc_inv {i j : Nat} (h : Desc i j) (hne : i ≠ j) :
    1 ≤ j ∧ j / 2 < j ∧ Desc i (j / 2) ∧ (j = 2 * (j / 2) ∨ j = 2 * (j / 2) + 1) := by
  cases h with
  | refl => exact absurd rfl hne
  | step d hc hlt =>
    rename_i j0
    have hj0 : j0 = j / 2 := by omega
    subst hj0
    exact ⟨by omega, by omega, d, by omega⟩

theorem desc_first_step {i j : Nat} (h : Desc i j) :
    i = j ∨ ∃ c, (c = 2 * i ∨ c = 2 * i + 1) ∧ i < c ∧ Desc c j := by
  induction h with
  | refl => exact Or.inl rfl
  | step d hc hlt ih =>
    rcases ih with h1 | ⟨c, hc2, hlt2, hd⟩
    · subst h1
      exact Or.inr ⟨_, hc, hlt, Desc.refl _⟩
    · exact Or.inr ⟨c, hc2, hlt2, Desc.step hd hc hlt⟩

theorem desc_ge_double {m p : Nat} (h : Desc m p) : p = m ∨ (2 * m ≤ p ∧ m < p) := by
  rcases desc_first_step h with h1 | ⟨c, hc, hlt, hd⟩
  · exact Or.inl h1.symm
  · have := hd.le
    omega

theorem desc_comparable {d : Nat} :
    ∀ {i q : Nat}, Desc i d → Desc q d → Desc i q ∨ Desc q i := by
  induction d using Nat.strong_induction_on with
  | _ d ih =>
    intro i q h1 h2
    by_cases hi : i = d
    · subst hi
      exact Or.inr h2
    · by_cases hq : q = d
      · subst hq
        exact Or.inl h1
      · obtain ⟨hd1, hd2, hd3, _⟩ := desc_inv h1 hi
        obtain ⟨_, _, hd3', _⟩ := desc_inv h2 hq
        exact ih (d / 2) hd2 hd3 hd3'

theorem desc_zero (j : Nat) : Desc 0 j := by
  induction j using Nat.strong_induction_on with
  | _ j ih =>
    rcases Nat.eq_zero_or_pos j with h | h
    · subst h
      exact Desc.refl 0
    · exact Desc.step (ih (j / 2) (by omega)) (by omega) (by omega)

theorem SubHeap.desc {a : List Int} {i m : Nat} (h : SubHeap a i) (hd : Desc i m) :
    SubHeap a m := fun j k h1 h2 h3 h4 => h j k (hd.trans h1) h2 h3 h4

theorem subheap_of_len_le {a : List Int} {i : Nat} (h : a.length ≤ i) : SubHeap a i := by
  intro j k hd hc hlt hk
  have := hd.le
  omega

theorem subheap_max {a : List Int} {m : Nat} (h : SubHeap a m) :
    ∀ {j : Nat}, Desc m j → j < a.length → a.getD j 0 ≤ a.getD m 0 := by
  intro j hd
  induction hd with
  | refl => intro _; exact le_refl _
  | step d hc hlt ih =>
    intro hk
    have h1 := h _ _ d hc hlt hk
    have h2 := ih (by omega)
    omega

theorem subheap_congr {a b : List Int} {q : Nat} (hlen : b.length ≤ a.length)
    (hagree : ∀ p, Desc q p → p < b.length → b.getD p 0 = a.getD p 0)
    (h : SubHeap a q) : SubHeap b q := by
  intro j k hd hc hlt hk
  rw [hagree k (hd.trans (desc_child hc hlt)) hk, hagree j hd (by omega)]
  exact h j k hd hc hlt (by omega)

theorem heapifyLargest_bound (a : List Int) (i : Nat) (h : heapifyLargest a i ≠ i) :
    i < heapifyLargest a i ∧ heapifyLargest a i < a.length := by
  revert h
  unfold heapifyLargest
  split_ifs with h1 h2 h3 <;> intro h <;> omega

theorem heapifyLargest_child (a : List Int) (i : Nat) (h : heapifyLargest a i ≠ i) :
    heapifyLargest a i = 2*i ∨ heapifyLargest a i = 2*i+1 := by
  revert h
  unfold heapifyLargest
  split_ifs with h1 h2 h3 <;> intro h <;> omega

theorem heapifyLargest_gt (a : List Int) (i : Nat) (h : heapifyLargest a i ≠ i) :
    a.getD i 0 < a.getD (heapifyLargest a i) 0 := by
  revert h
  unfold heapifyLargest
  split_ifs with h1 h2 h3 <;> intro h <;> omega

theorem heapifyLargest_max (a : List Int) (i : Nat) :
    ∀ c, (c = 2*i ∨ c = 2*i+1) → c < a.length →
      a.getD c 0 ≤ a.getD (heapifyLargest a i) 0 := by
  intro c hc hclen
  unfold heapifyLargest
  split_ifs with h1 h2 h3 <;> rcases hc with hc | hc <;> subst hc <;> omega

/-- Full specification of `_max_heapify` at `i`, assuming the subtrees rooted
at the children of `i` already satisfy the heap property: it permutes the
list, changes only positions in the subtree of `i`, establishes the heap
property on that subtree, and preserves any upper bound on the subtree's
values. -/
theorem heapify_spec (a : List Int) (i : Nat)
    (hpre : ∀ c, (c = 2*i ∨ c = 2*i+1) → i < c → c < a.length → SubHeap a c) :
    (_max_heapify a i).length = a.length ∧
    ((_max_heapify a i).Perm a) ∧
    (∀ p, ¬ Desc i p → (_max_heapify a i).getD p 0 = a.getD p 0) ∧
    SubHeap (_max_heapify a i) i ∧
    (∀ b : Int, (∀ p, Desc i p → p < a.length → a.getD p 0 ≤ b) →
      ∀ p, Desc i p → p < a.length → (_max_heapify a i).getD p 0 ≤ b) := by
  rw [_max_heapify]
  by_cases h : heapifyLargest a i ≠ i
  · rw [dif_pos h]
    obtain ⟨hiL, hLlen⟩ := heapifyLargest_bound a i h
    have hilen : i < a.length := by omega
    have hgt : a.getD i 0 < a.getD (heapifyLargest a i) 0 := heapifyLargest_gt a i h
    have hmax := heapifyLargest_max a i
    have hLc : heapifyLargest a i = 2*i ∨ heapifyLargest a i = 2*i+1 :=
      heapifyLargest_child a i h
    set L := heapifyLargest a i with hLdef
    set a1 := swapNat a i L with ha1
    have ha1len : a1.length = a.length := swapNat_length a i L
    have hvi : a1.getD i 0 = a.getD L 0 := getD_swapNat_fst a hilen hLlen
    have hvL : a1.getD L 0 = a.getD i 0 := getD_swapNat_snd a hilen hLlen
    have hvo : ∀ p, p ≠ i → p ≠ L → a1.getD p 0 = a.getD p 0 :=
      fun p h1 h2 => getD_swapNat_other a h1 h2
    have hdiL : Desc i L := desc_child hLc hiL
    have hSaL : SubHeap a L := hpre L hLc hiL hLlen
    have hpre2 : ∀ c, (c = 2*L ∨ c = 2*L+1) → L < c → c < a1.length → SubHeap a1 c := by
      intro c hc hlt hclen
      have hSac : SubHeap a c := hSaL.desc (desc_child hc hlt)
      refine subheap_congr (le_of_eq ha1len) ?_ hSac
      intro p hdp hplen
      have hpc := hdp.le
      exact hvo p (by omega) (by omega)
    obtain ⟨r1, r2, r3, r4, r5⟩ := heapify_spec a1 L hpre2
    have hbnd : ∀ p, Desc L p → p < a1.length → a1.getD p 0 ≤ a.getD L 0 := by
      intro p hdp hplen
      by_cases hcp : p = L
      · subst hcp
        rw [hvL]
        omega
      · have hple := hdp.le
        rw [hvo p (by omega) hcp]
        exact subheap_max hSaL hdp (by omega)
    have hrootval : (_max_heapify a1 L).getD i 0 = a.getD L 0 := by
      rw [r3 i (fun hd => by have := hd.le; omega), hvi]
    refine ⟨by rw [r1, ha1len], r2.trans (swapNat_perm a hilen hLlen), ?_, ?_, ?_⟩
    · intro p hp
      have hnL : ¬ Desc L p := fun hd => hp (hdiL.trans hd)
      rw [r3 p hnL]
      exact hvo p (fun he => hp (he ▸ Desc.refl i)) (fun he => hp (he ▸ hdiL))
    · intro j k hdj hck hjk hklen
      rw [r1, ha1len] at hklen
      by_cases hdLj : Desc L j
      · exact r4 j k hdLj hck hjk (by omega)
      · by_cases hji : j = i
        · subst hji
          by_cases hkL : k = L
          · subst hkL
            rw [hrootval]
            exact r5 (a.getD L 0) hbnd L (Desc.refl L) (by omega)
          · have hnLk : ¬ Desc L k := by
              intro hd
              rcases desc_ge_double hd with h1 | h1
              · exact hkL h1
              · omega
            rw [r3 k hnLk, hvo k (by omega) hkL, hrootval]
            exact hmax k hck hklen
        · rcases desc_first_step hdj with h1 | ⟨c0, hc0, hltc0, hdc0⟩
          · exact absurd h1.symm hji
          · have hjge := hdc0.le
            have hnLk : ¬ Desc L k := by
              intro hdLk
              have hdjk : Desc j k := desc_child hck hjk
              rcases desc_comparable hdLk hdjk with h2 | h2
              · exact hdLj h2
              · have hjL : j ≠ L := fun he => hdLj (he ▸ Desc.refl L)
                have hcL : Desc c0 L := hdc0.trans h2
                by_cases hc0L : c0 = L
                · exact hdLj (hc0L ▸ hdc0)
                · rcases desc_ge_double hcL with h3 | h3
                  · exact hc0L h3.symm
                  · omega
            have hj_ne_L : j ≠ L := fun he => hdLj (he ▸ Desc.refl L)
            have hk_ne_L : k ≠ L := fun he => hnLk (he ▸ Desc.refl L)
            have hjgt : i < j := by
              have := hdj.le
              omega
            rw [r3 j hdLj, r3 k hnLk, hvo j (by omega) hj_ne_L,
              hvo k (by omega) hk_ne_L]
            exact hpre c0 hc0 hltc0 (by omega) j k hdc0 hck hjk hklen
    · intro b hb p hdp hplen
      by_cases hdLp : Desc L p
      · have hb2 : ∀ q, Desc L q → q < a1.length → a1.getD q 0 ≤ b := by
          intro q hdq hqlen
          by_cases hqL : q = L
          · subst hqL
            rw [hvL]
            exact hb i (Desc.refl i) hilen
          · have := hdq.le
            rw [hvo q (by omega) hqL]
            exact hb q (hdiL.trans hdq) (by omega)
        exact r5 b hb2 p hdLp (by omega)
      · rw [r3 p hdLp]
        by_cases hpi : p = i
        · subst hpi
          rw [hvi]
          exact hb L hdiL hLlen
        · rw [hvo p hpi (fun he => hdLp (he ▸ Desc.refl L))]
          exact hb p hdp hplen
  · rw [dif_neg h]
    have heq : heapifyLargest a i = i := not_not.mp h
    refine ⟨rfl, List.Perm.refl a, fun p _ => rfl, ?_,
      fun b hb p hdp hplen => hb p hdp hplen⟩
    intro j k hdj hck hjk hklen
    by_cases hji : j = i
    · subst hji
      have hm := heapifyLargest_max a j k hck hklen
      rwa [heq] at hm
    · rcases desc_first_step hdj with h1 | ⟨c0, hc0, hltc0, hdc0⟩
      · exact absurd h1.symm hji
      · have := hdc0.le
        exact hpre c0 hc0 hltc0 (by omega) j k hdc0 hck hjk hklen
termination_by a.length - i
decreasing_by
  have hsw : (swapNat a i (heapifyLargest a i)).length = a.length := swapNat_length a i _
  omega

theorem take_getD (a : List Int) {p n : Nat} (h : p < n) :
    (a.take n).getD p 0 = a.getD p 0 := by
  by_cases hp : p < a.length
  · have h1 : p < (a.take n).length := by
      simp only [List.length_take]
      omega
    rw [List.getD_eq_getElem _ _ h1, List.getD_eq_getElem _ _ hp, List.getElem_take]
  · rw [List.getD_eq_default _ _ (by simp only [List.length_take]; omega),
      List.getD_eq_default _ _ (by omega)]

theorem drop_swapNat_top (arr : List Int) {k : Nat} (hk : k < arr.length) :
    (swapNat arr 0 k).drop k = arr.getD 0 0 :: arr.drop (k+1) := by
  have h0 : 0 < arr.length := by omega
  by_cases hk0 : k = 0
  · subst hk0
    rw [swapNat_same arr h0, List.drop_zero, getD_eq_getElem_of_lt arr h0,
      ← List.drop_eq_getElem_cons h0]
    exact (List.drop_zero arr).symm
  · have hk1 : k < (swapNat arr 0 k).length := by
      rw [swapNat_length]
      omega
    rw [List.drop_eq_getElem_cons hk1, ← getD_eq_getElem_of_lt _ hk1,
      getD_swapNat_snd arr h0 hk]
    congr 1
    apply List.ext_getElem
    · simp [swapNat_length]
    · intro p h1 h2
      have h1a : p < arr.length - (k+1) := by
        simpa [swapNat_length] using h1
      rw [List.getElem_drop, List.getElem_drop,
        ← getD_eq_getElem_of_lt _ (show k+1+p < (swapNat arr 0 k).length by
          rw [swapNat_length]; omega),
        ← getD_eq_getElem_of_lt _ (show k+1+p < arr.length by omega),
        getD_swapNat_other arr (by omega) (by omega)]

theorem getD_swapNat_take (arr : List Int) {k p : Nat} (hk : k < arr.length) (hp : p < k) :
    ((swapNat arr 0 k).take k).getD p 0
      = if p = 0 then arr.getD k 0 else arr.getD p 0 := by
  have h0 : 0 < arr.length := by omega
  rw [take_getD _ hp]
  by_cases hp0 : p = 0
  · subst hp0
    rw [if_pos rfl, getD_swapNat_fst arr h0 hk]
  · rw [if_neg hp0, getD_swapNat_other arr hp0 (by omega)]

theorem getD_mem_take (arr : List Int) {q n : Nat} (hq : q < n) (hqa : q < arr.length) :
    arr.getD q 0 ∈ arr.take n := by
  rw [List.mem_iff_getElem]
  refine ⟨q, by simp only [List.length_take]; omega, ?_⟩
  rw [List.getElem_take, ← getD_eq_getElem_of_lt arr hqa]

/-- Invariant proof for the `_build_max_heap` loop: once indices
`i+1, i+2, ...` have been heapified, running the loop down from `i`
establishes the heap property everywhere. -/
theorem buildGo_spec :
    ∀ (i : Nat) (a : List Int), (∀ q, i + 1 ≤ q → SubHeap a q) →
      (_build_max_heapGo a i).length = a.length ∧
      ((_build_max_heapGo a i).Perm a) ∧
      (∀ q, SubHeap (_build_max_heapGo a i) q)
  | 0, a, hyp => by
    have hpre : ∀ c, (c = 2*0 ∨ c = 2*0+1) → 0 < c → c < a.length → SubHeap a c := by
      intro c hc hlt hclen
      have hc1 : c = 1 := by omega
      subst hc1
      exact hyp 1 (le_refl 1)
    obtain ⟨r1, r2, r3, r4, r5⟩ := heapify_spec a 0 hpre
    exact ⟨r1, r2, fun q => r4.desc (desc_zero q)⟩
  | i+1, a, hyp => by
    have hpre : ∀ c, (c = 2*(i+1) ∨ c = 2*(i+1)+1) → i+1 < c → c < a.length → SubHeap a c :=
      fun c hc hlt hclen => hyp c (by omega)
    obtain ⟨r1, r2, r3, r4, r5⟩ := heapify_spec a (i+1) hpre
    have hyp2 : ∀ q, i + 1 ≤ q → SubHeap (_max_heapify a (i+1)) q := by
      intro q hq
      rcases Nat.eq_or_lt_of_le hq with hq1 | hq1
      · rw [← hq1]
        exact r4
      · by_cases hd : Desc (i+1) q
        · exact r4.desc hd
        · refine subheap_congr (le_of_eq r1) ?_ (hyp q (by omega))
          intro p hdp hplen
          refine r3 p ?_
          intro hdp2
          rcases desc_comparable hdp2 hdp with h2 | h2
          · exact hd h2
          · have := h2.le
            omega
    obtain ⟨s1, s2, s3⟩ := buildGo_spec i (_max_heapify a (i+1)) hyp2
    simp only [_build_max_heapGo]
    exact ⟨by rw [s1, r1], s2.trans r2, s3⟩

/-- `_build_max_heap` permutes its input and establishes the heap property. -/
theorem build_spec (a : List Int) :
    (_build_max_heap a).length = a.length ∧
    ((_build_max_heap a).Perm a) ∧
    (∀ q, SubHeap (_build_max_heap a) q) := by
  apply buildGo_spec
  intro q hq j k hd hc hlt hk
  have := hd.le
  omega

/-- Invariant proof for the extraction loop of `heap_sort`: if the first `k`
positions of `arr` form a max heap, the rest is sorted, and every heap
element is at most every sorted-suffix element, then the loop returns a
sorted permutation of `arr`. -/
theorem heapExtract_spec :
    ∀ (k : Nat) (caller arr : List Int) (al : Bool), k ≤ arr.length →
      SubHeap (arr.take k) 0 →
      List.Sorted (· ≤ ·) (arr.drop k) →
      (∀ x ∈ arr.take k, ∀ y ∈ arr.drop k, x ≤ y) →
      (heapExtractLoop caller arr al k).2.Perm arr ∧
        List.Sorted (· ≤ ·) (heapExtractLoop caller arr al k).2
  | 0, caller, arr, al, _, _, hsort, _ => by
    refine ⟨List.Perm.refl arr, ?_⟩
    rwa [List.drop_zero] at hsort
  | k+1, caller, arr, al, hk, hheap, hsort, hmix => by
    have hklt : k < arr.length := by omega
    have h0 : 0 < arr.length := by omega
    have htklen : (arr.take (k+1)).length = k + 1 := by
      simp only [List.length_take]
      omega
    set arr1 := swapNat arr 0 k with harr1
    have harr1len : arr1.length = arr.length := swapNat_length arr 0 k
    have hX1len : (arr1.take k).length = k := by
      simp only [List.length_take]
      omega
    have hdrop1 : arr1.drop k = arr.getD 0 0 :: arr.drop (k+1) := drop_swapNat_top arr hklt
    -- the root is the maximum of the heap region
    have hrootmax : ∀ q, q < k + 1 → arr.getD q 0 ≤ arr.getD 0 0 := by
      intro q hq
      have h1 := subheap_max hheap (desc_zero q) (by omega)
      rwa [take_getD arr hq, take_getD arr (show 0 < k+1 by omega)] at h1
    -- members of the swapped heap region are values of the original region
    have hmem1 : ∀ x ∈ arr1.take k, ∃ q, q < k + 1 ∧ x = arr.getD q 0 := by
      intro x hx
      rw [List.mem_iff_getElem] at hx
      obtain ⟨p, hp, hpx⟩ := hx
      rw [hX1len] at hp
      rw [← getD_eq_getElem_of_lt _ (by rw [hX1len]; omega),
        getD_swapNat_take arr hklt hp] at hpx
      by_cases hp0 : p = 0
      · rw [if_pos hp0] at hpx
        exact ⟨k, by omega, hpx.symm⟩
      · rw [if_neg hp0] at hpx
        exact ⟨p, by omega, hpx.symm⟩
    -- heap precondition for heapify on the shrunk region
    have hpre : ∀ c, (c = 2*0 ∨ c = 2*0+1) → 0 < c → c < (arr1.take k).length →
        SubHeap (arr1.take k) c := by
      intro c hc hlt hclen
      have hc1 : c = 1 := by omega
      subst hc1
      refine subheap_congr (a := arr.take (k+1)) (by rw [hX1len, htklen]; omega) ?_
        (hheap.desc (desc_zero 1))
      intro p hdp hplen
      have hp1 : 1 ≤ p := hdp.le
      rw [hX1len] at hplen
      rw [getD_swapNat_take arr hklt hplen, if_neg (by omega), take_getD arr (by omega)]
    obtain ⟨x1, x2, x3, x4, x5⟩ := heapify_spec (arr1.take k) 0 hpre
    set X := _max_heapify (arr1.take k) 0 with hXdef
    have hXlen : X.length = k := by rw [x1, hX1len]
    set newarr := X ++ arr1.drop k with hnew
    have hnewlen : newarr.length = arr.length := by
      rw [List.length_append, hXlen, List.length_drop]
      omega
    have hnewtake : newarr.take k = X := by
      rw [hnew, ← hXlen, List.take_left]
    have hnewdrop : newarr.drop k = arr.getD 0 0 :: arr.drop (k+1) := by
      have hdl : newarr.drop X.length = arr1.drop k := by
        rw [hnew, List.drop_left]
      rw [hXlen] at hdl
      rw [hdl, hdrop1]
    have hXmem : ∀ x ∈ X, ∃ q, q < k + 1 ∧ x = arr.getD q 0 := by
      intro x hx
      exact hmem1 x (x2.mem_iff.mp hx)
    have hmix' : ∀ x ∈ arr.take (k+1), ∀ y ∈ arr.drop (k+1), x ≤ y := hmix
    -- the new mixed bound
    have hnewmix : ∀ x ∈ newarr.take k, ∀ y ∈ newarr.drop k, x ≤ y := by
      intro x hx y hy
      rw [hnewtake] at hx
      obtain ⟨q, hq, hxq⟩ := hXmem x hx
      rw [hnewdrop] at hy
      rcases List.mem_cons.mp hy with hy | hy
      · rw [hxq, hy]
        exact hrootmax q hq
      · rw [hxq]
        exact hmix' (arr.getD q 0) (getD_mem_take arr hq (by omega)) y hy
    have hnewsort : List.Sorted (· ≤ ·) (newarr.drop k) := by
      rw [hnewdrop, List.sorted_cons]
      refine ⟨fun b hb => ?_, hsort⟩
      exact hmix' (arr.getD 0 0) (getD_mem_take arr (by omega) h0) b hb
    have hnewheap : SubHeap (newarr.take k) 0 := by
      rw [hnewtake]
      exact x4
    have hnewperm : newarr.Perm arr := by
      have h1 : newarr.Perm (arr1.take k ++ arr1.drop k) := x2.append_right _
      rw [List.take_append_drop] at h1
      exact h1.trans (swapNat_perm arr h0 hklt)
    obtain ⟨f1, f2⟩ := heapExtract_spec k (if al then swapNat arr 0 k else caller)
      newarr false (by omega) hnewheap hnewsort hnewmix
    simp only [heapExtractLoop]
    exact ⟨f1.trans hnewperm, f2⟩

/-- The list `heap_sort` returns is a sorted permutation of its input. -/
theorem heap_sort_spec (a : List Int) :
    (heap_sort a).Perm a ∧ List.Sorted (· ≤ ·) (heap_sort a) := by
  obtain ⟨b1, b2, b3⟩ := build_spec a
  have htk : (_build_max_heap a).take a.length = _build_max_heap a :=
    List.take_of_length_le (by omega)
  have hdp : (_build_max_heap a).drop a.length = [] := by
    rw [← b1, List.drop_length]
  obtain ⟨f1, f2⟩ := heapExtract_spec a.length (_build_max_heap a) (_build_max_heap a)
    true (by omega) (by rw [htk]; exact b3 0) (by rw [hdp]; simp)
    (by rw [hdp]; intro x _ y hy; simp at hy)
  unfold heap_sort heap_sortM
  exact ⟨f1.trans b2, f2⟩

theorem pyIdx_valid {n : Nat} {i : Int} (h0 : 0 ≤ i) (hn : i < (n : Int)) :
    pyIdx n i = some i.toNat := by
  unfold pyIdx
  rw [if_pos ⟨h0, hn⟩]

theorem pyGet_valid (a : List Int) {i : Int} (h0 : 0 ≤ i) (hn : i < (a.length : Int)) :
    pyGet a i = Except.ok (getI a i) := by
  unfold pyGet getI
  rw [pyIdx_valid h0 hn]

theorem pySet_valid (a : List Int) {i : Int} (v : Int) (h0 : 0 ≤ i)
    (hn : i < (a.length : Int)) : pySet a i v = Except.ok (a.set i.toNat v) := by
  unfold pySet
  rw [pyIdx_valid h0 hn]

theorem pySwap_valid (a : List Int) {i j : Int} (hi0 : 0 ≤ i) (hi : i < (a.length : Int))
    (hj0 : 0 ≤ j) (hj : j < (a.length : Int)) :
    pySwap a i j = Except.ok (swapNat a i.toNat j.toNat) := by
  unfold pySwap
  rw [pyGet_valid a hj0 hj, pyGet_valid a hi0 hi]
  change (match pySet a i (getI a j) with
    | Except.ok a1 => pySet a1 j (getI a i)
    | Except.error err => Except.error err) = Except.ok (swapNat a i.toNat j.toNat)
  rw [pySet_valid a (getI a j) hi0 hi]
  change pySet (a.set i.toNat (getI a j)) j (getI a i)
    = Except.ok (swapNat a i.toNat j.toNat)
  rw [pySet_valid _ (getI a i) hj0 (by simpa using hj)]
  rfl

theorem getD_drop (a : List Int) (m t : Nat) : (a.drop m).getD t 0 = a.getD (m + t) 0 := by
  by_cases h : m + t < a.length
  · have h1 : t < (a.drop m).length := by
      simp only [List.length_drop]
      omega
    rw [List.getD_eq_getElem _ _ h1, List.getD_eq_getElem _ _ h, List.getElem_drop]
  · rw [List.getD_eq_default _ _ (by simp only [List.length_drop]; omega),
      List.getD_eq_default _ _ (by omega)]

theorem seg_length (a : List Int) {s e : Int} (h0 : 0 ≤ s) (hlen : e < (a.length : Int)) :
    (seg a s e).length = (e + 1 - s).toNat := by
  unfold seg
  simp only [List.length_take, List.length_drop]
  omega

theorem seg_getD (a : List Int) {s e : Int} {t : Nat} (h0 : 0 ≤ s)
    (ht : t < (e + 1 - s).toNat) : (seg a s e).getD t 0 = a.getD (s.toNat + t) 0 := by
  unfold seg
  rw [take_getD _ ht, getD_drop]

theorem seg_nil (a : List Int) {s e : Int} (h : e < s) : seg a s e = [] := by
  unfold seg
  rw [show (e + 1 - s).toNat = 0 by omega, List.take_zero]

theorem seg_cons (a : List Int) {p e : Int} (h0 : 0 ≤ p) (hpe : p ≤ e)
    (hlen : p < (a.length : Int)) : seg a p e = getI a p :: seg a (p+1) e := by
  unfold seg getI
  have hdrop : a.drop p.toNat = a.getD p.toNat 0 :: a.drop (p.toNat + 1) := by
    rw [getD_eq_getElem_of_lt a (by omega), ← List.drop_eq_getElem_cons (by omega)]
  rw [hdrop, show (e + 1 - p).toNat = ((e + 1 - (p+1)).toNat) + 1 by omega]
  rw [List.take_succ_cons]
  rw [show p.toNat + 1 = (p+1).toNat by omega]

theorem seg_split (a : List Int) {s p e : Int} (h0 : 0 ≤ s) (hsp : s ≤ p) (hpe : p ≤ e + 1) :
    seg a s e = seg a s (p-1) ++ seg a p e := by
  unfold seg
  have h1 : (p - 1 + 1 - s).toNat = (p - s).toNat := by omega
  have h2 : (e + 1 - s).toNat = (p - s).toNat + (e + 1 - p).toNat := by omega
  rw [h1, h2, List.take_add, List.drop_drop,
    show s.toNat + (p - s).toNat = p.toNat by omega]

theorem seg_congr (a b : List Int) {s e : Int} (h0 : 0 ≤ s)
    (hlen : a.length = b.length) (hea : e < (a.length : Int))
    (hagree : ∀ k : Nat, k < a.length → s ≤ (k : Int) → (k : Int) ≤ e →
      a.getD k 0 = b.getD k 0) : seg a s e = seg b s e := by
  apply List.ext_getElem
  · rw [seg_length a h0 hea, seg_length b h0 (by omega)]
  · intro t h1 h2
    rw [seg_length a h0 hea] at h1
    rw [← List.getD_eq_getElem _ 0, ← List.getD_eq_getElem _ 0,
      seg_getD a h0 h1, seg_getD b h0 h1]
    exact hagree (s.toNat + t) (by omega) (by omega) (by omega)

theorem mem_seg (a : List Int) {s e : Int} {x : Int} (h0 : 0 ≤ s)
    (hlen : e < (a.length : Int)) :
    x ∈ seg a s e ↔ ∃ k : Nat, s ≤ (k : Int) ∧ (k : Int) ≤ e ∧ a.getD k 0 = x := by
  rw [List.mem_iff_getElem]
  constructor
  · rintro ⟨t, ht, hval⟩
    have ht2 : t < (e + 1 - s).toNat := by
      rw [seg_length a h0 hlen] at ht
      omega
    refine ⟨s.toNat + t, by omega, by omega, ?_⟩
    rw [← hval, ← List.getD_eq_getElem _ 0, seg_getD a h0 ht2]
  · rintro ⟨k, hk1, hk2, hval⟩
    have ht2 : k - s.toNat < (e + 1 - s).toNat := by omega
    refine ⟨k - s.toNat, by rw [seg_length a h0 hlen]; omega, ?_⟩
    rw [← List.getD_eq_getElem _ 0, seg_getD a h0 ht2, ← hval]
    congr 1
    omega

theorem seg_all (a : List Int) : seg a 0 ((a.length : Int) - 1) = a := by
  unfold seg
  rw [Int.toNat_zero, List.drop_zero, show ((a.length : Int) - 1 + 1 - 0).toNat = a.length
    by omega, List.take_length]

theorem sorted_of_length_le_one {l : List Int} (h : l.length ≤ 1) :
    List.Sorted (· ≤ ·) l := by
  match l with
  | [] => simp
  | [x] => simp
  | x :: y :: t => simp at h

theorem perm_seg_of_frame {a1 a0 : List Int} {s e : Int} (hperm : a1.Perm a0)
    (hframe : ∀ k : Nat, k < a0.length → ((k : Int) < s ∨ e < (k : Int)) →
      a1.getD k 0 = a0.getD k 0)
    (h0 : 0 ≤ s) (hse : s ≤ e + 1) (hea : e < (a0.length : Int)) :
    (seg a1 s e).Perm (seg a0 s e) := by
  have hlen : a1.length = a0.length := hperm.length_eq
  have hdec : ∀ (b : List Int), b = b.take s.toNat ++ seg b s e ++ b.drop (e+1).toNat := by
    intro b
    unfold seg
    conv_lhs => rw [← List.take_append_drop s.toNat b]
    rw [List.append_assoc]
    congr 1
    conv_lhs => rw [← List.take_append_drop (e + 1 - s).toNat (b.drop s.toNat)]
    rw [List.drop_drop]
    congr 2
    omega
  have htake : a1.take s.toNat = a0.take s.toNat := by
    apply List.ext_getElem
    · simp only [List.length_take]
      omega
    · intro t h1 h2
      simp only [List.length_take] at h1
      rw [List.getElem_take, List.getElem_take,
        ← getD_eq_getElem_of_lt _ (show t < a1.length by omega),
        ← getD_eq_getElem_of_lt _ (show t < a0.length by omega)]
      exact hframe t (by omega) (by omega)
  have hdrop : a1.drop (e+1).toNat = a0.drop (e+1).toNat := by
    apply List.ext_getElem
    · simp only [List.length_drop]
      omega
    · intro t h1 h2
      simp only [List.length_drop] at h1
      rw [List.getElem_drop, List.getElem_drop,
        ← getD_eq_getElem_of_lt _ (show (e+1).toNat + t < a1.length by omega),
        ← getD_eq_getElem_of_lt _ (show (e+1).toNat + t < a0.length by omega)]
      exact hframe ((e+1).toNat + t) (by omega) (by omega)
  rw [List.perm_iff_count]
  intro w
  have hc1 : a1.count w = (a1.take s.toNat).count w + (seg a1 s e).count w
      + (a1.drop (e+1).toNat).count w := by
    conv_lhs => rw [hdec a1]
    simp only [List.count_append]
  have hc0 : a0.count w = (a0.take s.toNat).count w + (seg a0 s e).count w
      + (a0.drop (e+1).toNat).count w := by
    conv_lhs => rw [hdec a0]
    simp only [List.count_append]
  have hcc := List.perm_iff_count.mp hperm w
  rw [htake, hdrop] at hc1
  omega

/-- Invariant proof for the scan loop of `_partition`: positions `[s, i]`
hold values `≤ x`, positions `(i, j)` hold values `> x`, and positions
outside `[s, j)` are untouched. -/
theorem partLoop_spec (x : Int) (n : Nat) (s e : Int) (a0 : List Int) (hs0 : 0 ≤ s)
    (hen : e < (n : Int)) :
    ∀ (c : Nat) (a : List Int) (i j : Int),
      a.length = n → s - 1 ≤ i → i < j → s ≤ j → j + c = e →
      (∀ k : Nat, s ≤ (k:Int) → (k:Int) ≤ i → a.getD k 0 ≤ x) →
      (∀ k : Nat, i < (k:Int) → (k:Int) < j → x < a.getD k 0) →
      (∀ k : Nat, k < n → ((k:Int) < s ∨ j ≤ (k:Int)) → a.getD k 0 = a0.getD k 0) →
      a.Perm a0 →
      ∃ a1 i1, partLoop x a i j c = Except.ok (a1, i1) ∧
        a1.length = n ∧ s - 1 ≤ i1 ∧ i1 < e ∧
        (∀ k : Nat, s ≤ (k:Int) → (k:Int) ≤ i1 → a1.getD k 0 ≤ x) ∧
        (∀ k : Nat, i1 < (k:Int) → (k:Int) < e → x < a1.getD k 0) ∧
        (∀ k : Nat, k < n → ((k:Int) < s ∨ e ≤ (k:Int)) → a1.getD k 0 = a0.getD k 0) ∧
        a1.Perm a0
  | 0, a, i, j, hlen, hi1, hij, hsj, hjc, hA, hB, hC, hperm => by
    have hje : j = e := by omega
    subst hje
    exact ⟨a, i, rfl, hlen, hi1, by omega, hA, hB, hC, hperm⟩
  | c+1, a, i, j, hlen, hi1, hij, hsj, hjc, hA, hB, hC, hperm => by
    have hje : j < e := by omega
    have hj0 : 0 ≤ j := by omega
    have hjn : j < (a.length : Int) := by
      rw [hlen]
      omega
    have hi1n : i + 1 < (a.length : Int) := by
      rw [hlen]
      omega
    have hi10 : 0 ≤ i + 1 := by omega
    by_cases hle : getI a j ≤ x
    · set a2 := swapNat a (i+1).toNat j.toNat with ha2
      have ha2len : a2.length = n := by
        rw [ha2, swapNat_length, hlen]
      have hva : a2.getD (i+1).toNat 0 = a.getD j.toNat 0 :=
        getD_swapNat_fst a (by omega) (by omega)
      have hvb : a2.getD j.toNat 0 = a.getD (i+1).toNat 0 :=
        getD_swapNat_snd a (by omega) (by omega)
      have hvo : ∀ k : Nat, k ≠ (i+1).toNat → k ≠ j.toNat → a2.getD k 0 = a.getD k 0 :=
        fun k h1 h2 => getD_swapNat_other a h1 h2
      have hA2 : ∀ k : Nat, s ≤ (k:Int) → (k:Int) ≤ i + 1 → a2.getD k 0 ≤ x := by
        intro k hk1 hk2
        by_cases hk : (k:Int) = i + 1
        · have : k = (i+1).toNat := by omega
          rw [this, hva]
          exact hle
        · rw [hvo k (by omega) (by omega)]
          exact hA k hk1 (by omega)
      have hB2 : ∀ k : Nat, i + 1 < (k:Int) → (k:Int) < j + 1 → x < a2.getD k 0 := by
        intro k hk1 hk2
        by_cases hk : (k:Int) = j
        · have hkk : k = j.toNat := by omega
          rw [hkk, hvb]
          exact hB (i+1).toNat (by omega) (by omega)
        · rw [hvo k (by omega) (by omega)]
          exact hB k (by omega) (by omega)
      have hC2 : ∀ k : Nat, k < n → ((k:Int) < s ∨ j + 1 ≤ (k:Int)) →
          a2.getD k 0 = a0.getD k 0 := by
        intro k hk1 hk2
        rw [hvo k (by omega) (by omega)]
        exact hC k hk1 (by omega)
      obtain ⟨a1, i1, hrun, hh⟩ := partLoop_spec x n s e a0 hs0 hen c a2 (i+1) (j+1)
        ha2len (by omega) (by omega) (by omega) (by omega) hA2 hB2 hC2
        ((swapNat_perm a (by omega) (by omega)).trans hperm)
      refine ⟨a1, i1, ?_, hh⟩
      rw [show partLoop x a i j (c+1) = partLoop x a2 (i+1) (j+1) c by
        simp only [partLoop, pyGet_valid a hj0 hjn, if_pos hle,
          pySwap_valid a hi10 hi1n hj0 hjn]]
      exact hrun
    · have hB2 : ∀ k : Nat, i < (k:Int) → (k:Int) < j + 1 → x < a.getD k 0 := by
        intro k hk1 hk2
        by_cases hk : (k:Int) = j
        · have hkk : k = j.toNat := by omega
          rw [hkk]
          unfold getI at hle
          omega
        · exact hB k hk1 (by omega)
      have hC2 : ∀ k : Nat, k < n → ((k:Int) < s ∨ j + 1 ≤ (k:Int)) →
          a.getD k 0 = a0.getD k 0 :=
        fun k hk1 hk2 => hC k hk1 (by omega)
      obtain ⟨a1, i1, hrun, hh⟩ := partLoop_spec x n s e a0 hs0 hen c a i (j+1)
        hlen (by omega) (by omega) (by omega) (by omega) hA hB2 hC2 hperm
      refine ⟨a1, i1, ?_, hh⟩
      rw [show partLoop x a i j (c+1) = partLoop x a i (j+1) c by
        simp only [partLoop, pyGet_valid a hj0 hjn, if_neg hle]]
      exact hrun

/-- Specification of `_partition` on a valid range `0 ≤ start ≤ end < n`,
for every pivot oracle value `r`: it succeeds, returns a pivot index in
`[start, end]`, leaves positions outside `[start, end]` unchanged, puts
values `≤ pivot` strictly below it and values `> pivot` strictly above it,
and permutes the list. -/
theorem partition_spec (a : List Int) (s e : Int) (r : Nat)
    (h0 : 0 ≤ s) (hse : s ≤ e) (hlen : e < (a.length : Int)) :
    ∃ a2 piv, _partition a s e r = Except.ok (a2, piv) ∧
      s ≤ piv ∧ piv ≤ e ∧
      a2.length = a.length ∧
      (∀ k : Nat, k < a.length → ((k:Int) < s ∨ e < (k:Int)) → a2.getD k 0 = a.getD k 0) ∧
      (∀ k : Nat, s ≤ (k:Int) → (k:Int) < piv → a2.getD k 0 ≤ getI a2 piv) ∧
      (∀ k : Nat, piv < (k:Int) → (k:Int) ≤ e → getI a2 piv < a2.getD k 0) ∧
      a2.Perm a := by
  have hm1 : 0 ≤ (r : Int) % (e - s + 1) := Int.emod_nonneg r (by omega)
  have hm2 : (r : Int) % (e - s + 1) < e - s + 1 := Int.emod_lt_of_pos r (by omega)
  set rand := s + (r : Int) % (e - s + 1) with hranddef
  have hrand1 : s ≤ rand := by omega
  have hrand2 : rand ≤ e := by omega
  set a0 := swapNat a rand.toNat e.toNat with ha0
  have ha0len : a0.length = a.length := swapNat_length a _ _
  set x := getI a0 e with hx
  obtain ⟨a1, i1, hrun, ha1len, hi1a, hi1b, hA, hB, hC, hperm1⟩ :=
    partLoop_spec x a.length s e a0 h0 hlen (e - s).toNat a0 (s - 1) s
      ha0len (by omega) (by omega) (by omega) (by omega)
      (fun k hk1 hk2 => by omega)
      (fun k hk1 hk2 => by omega)
      (fun k _ _ => rfl)
      (List.Perm.refl a0)
  have hpn : i1 + 1 < (a1.length : Int) := by
    rw [ha1len]
    omega
  have hp0 : 0 ≤ i1 + 1 := by omega
  have he0 : 0 ≤ e := by omega
  have hen1 : e < (a1.length : Int) := by
    rw [ha1len]
    omega
  set a2 := swapNat a1 (i1+1).toNat e.toNat with ha2def
  have ha2len : a2.length = a.length := by
    rw [ha2def, swapNat_length, ha1len]
  have hxe : a1.getD e.toNat 0 = x := by
    rw [hC e.toNat (by omega) (by omega), hx]
    rfl
  have hpv : a2.getD (i1+1).toNat 0 = x := by
    rw [ha2def, getD_swapNat_fst a1 (by omega) (by omega), hxe]
  have hev : a2.getD e.toNat 0 = a1.getD (i1+1).toNat 0 :=
    getD_swapNat_snd a1 (by omega) (by omega)
  have hvo : ∀ k : Nat, k ≠ (i1+1).toNat → k ≠ e.toNat → a2.getD k 0 = a1.getD k 0 :=
    fun k h1 h2 => getD_swapNat_other a1 h1 h2
  have hgetI : getI a2 (i1+1) = x := hpv
  refine ⟨a2, i1 + 1, ?_, by omega, by omega, ha2len, ?_, ?_, ?_, ?_⟩
  · simp only [_partition, @pySwap_valid a rand e (by omega) (by omega) he0 (by omega),
      ← ha0, @pyGet_valid a0 e he0 (by rw [ha0len]; omega), ← hx, hrun,
      @pySwap_valid a1 (i1+1) e hp0 hpn he0 hen1, ← ha2def]
  · intro k hk1 hk2
    rw [hvo k (by omega) (by omega), hC k (by omega) (by omega), ha0,
      getD_swapNat_other a (by omega) (by omega)]
  · intro k hk1 hk2
    rw [hgetI, hvo k (by omega) (by omega)]
    exact hA k hk1 (by omega)
  · intro k hk1 hk2
    rw [hgetI]
    by_cases hke : (k:Int) = e
    · have hkk : k = e.toNat := by omega
      rw [hkk, hev]
      exact hB (i1+1).toNat (by omega) (by omega)
    · rw [hvo k (by omega) (by omega)]
      exact hB k (by omega) (by omega)
  · exact ((swapNat_perm a1 (by omega) (by omega)).trans hperm1).trans
      (swapNat_perm a (by omega) (by omega))

/-- Specification of `quick_sort` on a range with `0 ≤ start` and
`end < n`, for every pivot oracle: it succeeds, leaves every position
outside `[start, end]` unchanged, and rearranges positions `[start, end]`
into a sorted permutation of their previous contents. -/
theorem quick_sort_spec :
    ∀ (fuel : Nat) (a : List Int) (s e : Int) (σ : List Bool → Nat) (path : List Bool),
      (e - s).toNat ≤ fuel → 0 ≤ s → e < (a.length : Int) →
      ∃ a3, quick_sort a s e σ path = Except.ok a3 ∧
        a3.length = a.length ∧
        (∀ k : Nat, k < a.length → ((k:Int) < s ∨ e < (k:Int)) → a3.getD k 0 = a.getD k 0) ∧
        (seg a3 s e).Perm (seg a s e) ∧
        List.Sorted (· ≤ ·) (seg a3 s e) ∧
        a3.Perm a
  | fuel, a, s, e, σ, path, hfuel, hs0, hea => by
    by_cases hlt : s < e
    · cases fuel with
      | zero => exfalso; omega
      | succ f =>
        obtain ⟨a1, piv, hpart, hsp, hpe, h1len, h1frame, h1le, h1gt, h1perm⟩ :=
          partition_spec a s e (σ path) hs0 (by omega) hea
        obtain ⟨a2, hq2, h2len, h2frame, h2permseg, h2sorted, h2perm⟩ :=
          quick_sort_spec f a1 s (piv - 1) σ (false :: path) (by omega) hs0
            (by rw [h1len]; omega)
        obtain ⟨a3, hq3, h3len, h3frame, h3permseg, h3sorted, h3perm⟩ :=
          quick_sort_spec f a2 (piv + 1) e σ (true :: path) (by omega) (by omega)
            (by rw [h2len, h1len]; omega)
        have hrun : quick_sort a s e σ path = Except.ok a3 := by
          rw [quick_sort, dif_pos hlt]
          split
          · rename_i err heq
            rw [hpart] at heq
            cases heq
          · rename_i a1' piv' heq
            rw [hpart] at heq
            simp only [Except.ok.injEq, Prod.mk.injEq] at heq
            obtain ⟨hh1, hh2⟩ := heq
            subst hh1
            subst hh2
            simp only [hq2]
            exact hq3
        have halen : a3.length = a.length := by rw [h3len, h2len, h1len]
        have hframe : ∀ k : Nat, k < a.length → ((k:Int) < s ∨ e < (k:Int)) →
            a3.getD k 0 = a.getD k 0 := by
          intro k hk1 hk2
          rw [h3frame k (by omega) (by omega), h2frame k (by omega) (by omega),
            h1frame k hk1 hk2]
        have hpiva : (piv : Int) < (a.length : Int) := by omega
        have hpv3 : getI a3 piv = getI a1 piv := by
          unfold getI
          rw [h3frame piv.toNat (by omega) (by omega),
            h2frame piv.toNat (by omega) (by omega)]
        have hL32 : seg a3 s (piv-1) = seg a2 s (piv-1) := by
          refine seg_congr a3 a2 hs0 (by rw [h3len]) (by omega) ?_
          intro k hk1 hk2 hk3
          exact h3frame k (by omega) (by omega)
        have hR21 : seg a2 (piv+1) e = seg a1 (piv+1) e := by
          refine seg_congr a2 a1 (by omega) (by rw [h2len]) (by rw [h2len, h1len]; omega) ?_
          intro k hk1 hk2 hk3
          exact h2frame k (by omega) (by omega)
        have hsplit3 : seg a3 s e = seg a3 s (piv-1) ++ (getI a3 piv :: seg a3 (piv+1) e) := by
          rw [seg_split a3 hs0 hsp (by omega), @seg_cons a3 piv e (by omega) (by omega) (by omega)]
        have hsplit1 : seg a1 s e = seg a1 s (piv-1) ++ (getI a1 piv :: seg a1 (piv+1) e) := by
          rw [seg_split a1 hs0 hsp (by omega), @seg_cons a1 piv e (by omega) (by omega)
            (by rw [h1len]; omega)]
        have hLle : ∀ y ∈ seg a3 s (piv-1), y ≤ getI a1 piv := by
          intro y hy
          rw [hL32] at hy
          have hy1 := h2permseg.mem_iff.mp hy
          rw [mem_seg a1 hs0 (by rw [h1len]; omega)] at hy1
          obtain ⟨k, hk1, hk2, hkv⟩ := hy1
          rw [← hkv]
          exact h1le k hk1 (by omega)
        have hRperm : (seg a3 (piv+1) e).Perm (seg a1 (piv+1) e) := by
          rw [← hR21]
          exact h3permseg
        have hRgt : ∀ y ∈ seg a3 (piv+1) e, getI a1 piv < y := by
          intro y hy
          have hy1 := hRperm.mem_iff.mp hy
          rw [mem_seg a1 (by omega) (by rw [h1len]; omega)] at hy1
          obtain ⟨k, hk1, hk2, hkv⟩ := hy1
          rw [← hkv]
          exact h1gt k (by omega) hk2
        have hsorted : List.Sorted (· ≤ ·) (seg a3 s e) := by
          rw [hsplit3, hpv3, List.Sorted, List.pairwise_append]
          refine ⟨by rw [hL32]; exact h2sorted, ?_, ?_⟩
          · rw [List.pairwise_cons]
            exact ⟨fun y hy => le_of_lt (hRgt y hy), h3sorted⟩
          · intro y hy b hb
            rcases List.mem_cons.mp hb with hb | hb
            · rw [hb]
              exact hLle y hy
            · exact le_of_lt (lt_of_le_of_lt (hLle y hy) (hRgt b hb))
        have hpermseg : (seg a3 s e).Perm (seg a s e) := by
          have h1segperm : (seg a1 s e).Perm (seg a s e) :=
            perm_seg_of_frame h1perm h1frame hs0 (by omega) hea
          refine List.Perm.trans ?_ h1segperm
          rw [hsplit3, hsplit1, hpv3]
          refine List.Perm.append ?_ ?_
          · rw [hL32]
            exact h2permseg
          · exact hRperm.cons _
        exact ⟨a3, hrun, halen, hframe, hpermseg, hsorted, h3perm.trans (h2perm.trans h1perm)⟩
    · refine ⟨a, ?_, rfl, fun k _ _ => rfl, List.Perm.refl _, ?_, List.Perm.refl a⟩
      · rw [quick_sort, dif_neg hlt]
      · apply sorted_of_length_le_one
        unfold seg
        simp only [List.length_take, List.length_drop]
        omega
termination_by fuel => fuel
decreasing_by
  all_goals omega

theorem good_py : GoodAcc pyGet pySet :=
  ⟨fun a i h0 hn => pyGet_valid a h0 hn, fun a i v h0 hn => pySet_valid a v h0 hn⟩

theorem pyIdxS_valid {n : Nat} {i : Int} (h0 : 0 ≤ i) (hn : i < (n : Int)) :
    pyIdxS n i = some i.toNat := by
  unfold pyIdxS
  rw [if_pos ⟨h0, hn⟩]

theorem good_pyS : GoodAcc pyGetS pySetS := by
  constructor
  · intro a i h0 hn
    unfold pyGetS
    rw [pyIdxS_valid h0 hn]
  · intro a i v h0 hn
    unfold pySetS
    rw [pyIdxS_valid h0 hn]

theorem foldl_min_le : ∀ (xs : List Int) (acc : Int),
    xs.foldl min acc ≤ acc ∧ ∀ x ∈ xs, xs.foldl min acc ≤ x
  | [], acc => by simp
  | y :: ys, acc => by
    obtain ⟨h1, h2⟩ := foldl_min_le ys (min acc y)
    refine ⟨?_, ?_⟩
    · simp only [List.foldl_cons]
      omega
    · intro x hx
      rcases List.mem_cons.mp hx with hx | hx
      · subst hx
        simp only [List.foldl_cons]
        omega
      · exact h2 x hx

theorem foldl_max_ge : ∀ (xs : List Int) (acc : Int),
    acc ≤ xs.foldl max acc ∧ ∀ x ∈ xs, x ≤ xs.foldl max acc
  | [], acc => by simp
  | y :: ys, acc => by
    obtain ⟨h1, h2⟩ := foldl_max_ge ys (max acc y)
    refine ⟨?_, ?_⟩
    · simp only [List.foldl_cons]
      omega
    · intro x hx
      rcases List.mem_cons.mp hx with hx | hx
      · subst hx
        simp only [List.foldl_cons]
        omega
      · exact h2 x hx

theorem pyMin_le {input : List Int} {x : Int} (hx : x ∈ input) : pyMin input ≤ x := by
  cases input with
  | nil => simp at hx
  | cons y ys =>
    show ys.foldl min y ≤ x
    rcases List.mem_cons.mp hx with hx | hx
    · subst hx
      exact (foldl_min_le ys x).1
    · exact (foldl_min_le ys y).2 _ hx

theorem pyMax_ge {input : List Int} {x : Int} (hx : x ∈ input) : x ≤ pyMax input := by
  cases input with
  | nil => simp at hx
  | cons y ys =>
    show x ≤ ys.foldl max y
    rcases List.mem_cons.mp hx with hx | hx
    · subst hx
      exact (foldl_max_ge ys x).1
    · exact (foldl_max_ge ys y).2 _ hx

theorem cs_shift_eq_max (input : List Int) :
    cs_shift input = max 0 (-(pyMin input)) := by
  unfold cs_shift
  rcases le_or_lt (pyMin input) 0 with h | h
  · rw [min_eq_left h, abs_of_nonpos h]
    omega
  · rw [min_eq_right (le_of_lt h), abs_of_nonneg (le_refl 0)]
    omega

theorem cs_shift_nonneg (input : List Int) : 0 ≤ cs_shift input := by
  rw [cs_shift_eq_max]
  omega

theorem cs_shifted_bounds {input : List Int} {x : Int} (hx : x ∈ input) :
    0 ≤ x + cs_shift input ∧ x + cs_shift input ≤ cs_K input := by
  have h1 := pyMin_le hx
  have h2 := pyMax_ge hx
  have h3 := cs_shift_eq_max input
  unfold cs_K
  omega

theorem cs_K_nonneg {input : List Int} (h : input ≠ []) : 0 ≤ cs_K input := by
  cases input with
  | nil => exact absurd rfl h
  | cons y ys =>
    have := cs_shifted_bounds (List.mem_cons_self y ys)
    omega

theorem cntSh_cons (sh : Int) (v : Nat) (y : Int) (l : List Int) :
    cntSh sh v (y :: l) = cntSh sh v l + (if y + sh = (v : Int) then 1 else 0) := by
  unfold cntSh
  rw [List.countP_cons]
  simp

theorem cntSh_le_of_sublist (sh : Int) (v : Nat) {l1 l2 : List Int}
    (h : l1.Sublist l2) : cntSh sh v l1 ≤ cntSh sh v l2 :=
  List.Sublist.countP_le _ h

/-- The first `counting_sort` loop increments one counter per element: the
final table holds, at each `v`, the old entry plus the number of unprocessed
elements with shifted value `v`. -/
theorem csLoop1_spec (getf : List Int → Int → Except PyErr Int)
    (setf : List Int → Int → Int → Except PyErr (List Int))
    (hg : GoodAcc getf setf) (input : List Int) (sh : Int) (LT : Nat)
    (hvals : ∀ x ∈ input, 0 ≤ x + sh ∧ x + sh < (LT : Int)) :
    ∀ (c i : Nat) (temp : List Int), temp.length = LT → i + c = input.length →
      ∃ temp2, csLoop1 getf setf input sh i c temp = Except.ok temp2 ∧
        temp2.length = LT ∧
        (∀ v : Nat, v < LT →
          temp2.getD v 0 = temp.getD v 0 + (cntSh sh v (input.drop i) : Int))
  | 0, i, temp, hlen, hic => by
    refine ⟨temp, rfl, hlen, ?_⟩
    intro v hv
    rw [show i = input.length by omega, List.drop_length]
    unfold cntSh
    simp
  | c+1, i, temp, hlen, hic => by
    have hilt : i < input.length := by omega
    set e := input.getD i 0 with hedef
    have he : e ∈ input := by
      rw [List.mem_iff_getElem]
      exact ⟨i, by omega, (getD_eq_getElem_of_lt input (by omega)).symm⟩
    obtain ⟨hb1, hb2⟩ := hvals e he
    have he1 : getf input (i : Int) = Except.ok e := by
      rw [hg.1 input (i : Int) (by omega) (by omega),
        show ((i : Int)).toNat = i by omega]
    set idx := (e + sh).toNat with hidx
    have hidxlt : idx < LT := by omega
    have he2 : getf temp (e + sh) = Except.ok (temp.getD idx 0) := by
      rw [hg.1 temp (e + sh) (by omega) (by omega), hidx]
    have he3 : setf temp (e + sh) (temp.getD idx 0 + 1)
        = Except.ok (temp.set idx (temp.getD idx 0 + 1)) := by
      rw [hg.2 temp (e + sh) _ (by omega) (by omega), hidx]
    obtain ⟨temp2, hrun, hlen2, hchar⟩ := csLoop1_spec getf setf hg input sh LT hvals
      c (i+1) (temp.set idx (temp.getD idx 0 + 1)) (by simp [hlen]) (by omega)
    refine ⟨temp2, ?_, hlen2, ?_⟩
    · simp only [csLoop1, he1, he2, he3]
      exact hrun
    · intro v hv
      rw [hchar v hv]
      have hdropi : input.drop i = e :: input.drop (i+1) := by
        rw [List.drop_eq_getElem_cons hilt]
        congr 1
        exact (getD_eq_getElem_of_lt input hilt).symm
      rw [hdropi, cntSh_cons]
      by_cases hv0 : (v : Int) = e + sh
      · rw [show v = idx by omega, getD_set_self temp idx _ (by omega),
          if_pos (by omega)]
        push_cast
        omega
      · rw [getD_set_ne temp _ (show idx ≠ v by omega), if_neg (by omega)]
        push_cast
        omega

/-- The second `counting_sort` loop turns the count table into prefix sums. -/
theorem csLoop2_spec (getf : List Int → Int → Except PyErr Int)
    (setf : List Int → Int → Int → Except PyErr (List Int))
    (hg : GoodAcc getf setf) (t1 : List Int) :
    ∀ (c j : Nat) (temp : List Int), temp.length = t1.length → 1 ≤ j →
      j + c = t1.length →
      (∀ v : Nat, v < j → temp.getD v 0 = psum t1 v) →
      (∀ v : Nat, j ≤ v → v < t1.length → temp.getD v 0 = t1.getD v 0) →
      ∃ temp2, csLoop2 getf setf j c temp = Except.ok temp2 ∧
        temp2.length = t1.length ∧
        (∀ v : Nat, v < t1.length → temp2.getD v 0 = psum t1 v)
  | 0, j, temp, hlen, hj1, hjc, hlow, hhigh => by
    refine ⟨temp, rfl, hlen, ?_⟩
    intro v hv
    exact hlow v (by omega)
  | c+1, j, temp, hlen, hj1, hjc, hlow, hhigh => by
    have hjlt : j < t1.length := by omega
    have he1 : getf temp (j : Int) = Except.ok (temp.getD j 0) := by
      rw [hg.1 temp (j : Int) (by omega) (by omega), show ((j : Int)).toNat = j by omega]
    have he2 : getf temp ((j : Int) - 1) = Except.ok (temp.getD (j-1) 0) := by
      rw [hg.1 temp ((j : Int) - 1) (by omega) (by omega),
        show ((j : Int) - 1).toNat = j - 1 by omega]
    have he3 : setf temp (j : Int) (temp.getD j 0 + temp.getD (j-1) 0)
        = Except.ok (temp.set j (temp.getD j 0 + temp.getD (j-1) 0)) := by
      rw [hg.2 temp (j : Int) _ (by omega) (by omega), show ((j : Int)).toNat = j by omega]
    have hval : temp.getD j 0 + temp.getD (j-1) 0 = psum t1 j := by
      rw [hhigh j (le_refl j) hjlt, hlow (j-1) (by omega)]
      have hps2 : psum t1 j = psum t1 (j-1) + t1.getD j 0 := by
        conv_lhs => rw [show j = (j-1)+1 by omega]
        rw [show psum t1 ((j-1)+1) = psum t1 (j-1) + t1.getD ((j-1)+1) 0 from rfl,
          show j - 1 + 1 = j by omega]
      omega
    obtain ⟨temp2, hrun, hlen2, hchar⟩ := csLoop2_spec getf setf hg t1 c (j+1)
      (temp.set j (temp.getD j 0 + temp.getD (j-1) 0)) (by simp [hlen]) (by omega)
      (by omega)
      (by
        intro v hv
        by_cases hvj : v = j
        · rw [hvj, getD_set_self temp j _ (by omega), hval]
        · rw [getD_set_ne temp _ (show j ≠ v by omega)]
          exact hlow v (by omega))
      (by
        intro v hv1 hv2
        rw [getD_set_ne temp _ (show j ≠ v by omega)]
        exact hhigh v (by omega) hv2)
    refine ⟨temp2, ?_, hlen2, hchar⟩
    simp only [csLoop2, he1, he2, he3]
    exact hrun

theorem shiftCount_nonneg (input : List Int) (v : Nat) : 0 ≤ shiftCount input v := by
  unfold shiftCount
  positivity

theorem shiftCum_succ (input : List Int) (v : Nat) :
    shiftCum input (v+1) = shiftCum input v + shiftCount input (v+1) := rfl

theorem shiftCum_zero (input : List Int) : shiftCum input 0 = shiftCount input 0 := rfl

theorem shiftCum_mono (input : List Int) : ∀ {v w : Nat}, v ≤ w →
    shiftCum input v ≤ shiftCum input w := by
  intro v w h
  induction w with
  | zero =>
    rw [show v = 0 by omega]
  | succ w ih =>
    by_cases hv : v = w + 1
    · rw [hv]
    · have h1 := ih (by omega)
      have h2 := shiftCount_nonneg input (w+1)
      rw [shiftCum_succ]
      omega

theorem shiftCum_pred (input : List Int) {v : Nat} (h : 1 ≤ v) :
    shiftCum input (v-1) = shiftCum input v - shiftCount input v := by
  conv_rhs => rw [show v = (v-1)+1 by omega, shiftCum_succ, show v - 1 + 1 = v by omega]
  omega

theorem shiftCum_sub_nonneg (input : List Int) (v : Nat) :
    0 ≤ shiftCum input v - shiftCount input v := by
  cases v with
  | zero =>
    rw [shiftCum_zero]
    omega
  | succ v =>
    rw [shiftCum_succ]
    have h1 : shiftCum input 0 ≤ shiftCum input v := shiftCum_mono input (by omega)
    have h2 := shiftCount_nonneg input 0
    rw [shiftCum_zero] at h1
    omega

theorem countP_le_split (sh : Int) : ∀ (l : List Int) (w : Int),
    List.countP (fun y => decide (y + sh ≤ w + 1)) l
      = List.countP (fun y => decide (y + sh ≤ w)) l
        + List.countP (fun y => decide (y + sh = w + 1)) l
  | [], w => by simp
  | y :: l, w => by
    simp only [List.countP_cons]
    rw [countP_le_split sh l w]
    by_cases h1 : y + sh ≤ w
    · rw [if_pos (by simp; omega), if_pos (by simp [h1]), if_neg (by simp; omega)]
      omega
    · by_cases h2 : y + sh = w + 1
      · rw [if_pos (by simp; omega), if_neg (by simp; omega), if_pos (by simp [h2])]
        omega
      · rw [if_neg (by simp; omega), if_neg (by simp [h1]), if_neg (by simp [h2])]
        omega

theorem shiftCum_eq_countP_le (input : List Int) : ∀ (v : Nat),
    shiftCum input v
      = (List.countP (fun y => decide (y + cs_shift input ≤ (v : Int))) input : Int)
  | 0 => by
    rw [shiftCum_zero]
    unfold shiftCount cntSh
    congr 1
    apply List.countP_congr
    intro x hx
    have := cs_shifted_bounds hx
    simp only [decide_eq_true_eq]
    omega
  | v+1 => by
    have hv1 : ((v+1 : Nat) : Int) = (v : Int) + 1 := by
      push_cast
      rfl
    rw [shiftCum_succ, shiftCum_eq_countP_le input v]
    unfold shiftCount cntSh
    rw [hv1]
    have hsplit := countP_le_split (cs_shift input) input (v : Int)
    omega

theorem shiftCum_last {input : List Int} (hne : input ≠ []) :
    shiftCum input ((cs_K input + 1).toNat - 1) = (input.length : Int) := by
  have hK := cs_K_nonneg hne
  rw [shiftCum_eq_countP_le]
  have h1 : List.countP
      (fun y => decide (y + cs_shift input ≤ ((((cs_K input + 1).toNat - 1 : Nat)) : Int)))
      input = List.countP (fun _ => true) input := by
    apply List.countP_congr
    intro x hx
    have hb := cs_shifted_bounds hx
    have hc : x + cs_shift input ≤ ((((cs_K input + 1).toNat - 1 : Nat)) : Int) := by
      omega
    simp [hc]
  rw [h1, List.countP_true]

theorem cs_coverage_aux (input : List Int) : ∀ (M : Nat) (p : Int), 0 ≤ p →
    p < shiftCum input M →
    ∃ v : Nat, v ≤ M ∧ shiftCum input v - shiftCount input v ≤ p ∧ p < shiftCum input v
  | 0, p, h0, hp => ⟨0, le_refl 0, by rw [shiftCum_zero]; omega, hp⟩
  | M+1, p, h0, hp => by
    by_cases hM : p < shiftCum input M
    · obtain ⟨v, hv1, hv2, hv3⟩ := cs_coverage_aux input M p h0 hM
      exact ⟨v, by omega, hv2, hv3⟩
    · refine ⟨M+1, le_refl _, ?_, hp⟩
      rw [shiftCum_succ]
      omega

theorem cs_coverage {input : List Int} (hne : input ≠ []) {p : Nat}
    (hp : p < input.length) :
    ∃ v : Nat, v < (cs_K input + 1).toNat ∧
      shiftCum input v - shiftCount input v ≤ (p : Int) ∧ (p : Int) < shiftCum input v := by
  have hK := cs_K_nonneg hne
  have hlast := shiftCum_last hne
  obtain ⟨v, hv1, hv2, hv3⟩ := cs_coverage_aux input ((cs_K input + 1).toNat - 1) p
    (by omega) (by omega)
  exact ⟨v, by omega, hv2, hv3⟩

/-- Invariant proof for the third `counting_sort` loop: scanning the input
from the end, each element is placed one slot below the current counter of
its shifted value, and the counter is decremented; written blocks grow
downward and end exactly at the cumulative-count boundaries. -/
theorem csLoop3_spec (getf : List Int → Int → Except PyErr Int)
    (setf : List Int → Int → Int → Except PyErr (List Int))
    (hg : GoodAcc getf setf) (input : List Int) (hne : input ≠ []) :
    ∀ (k : Nat) (temp out : List Int),
      k ≤ input.length →
      temp.length = (cs_K input + 1).toNat →
      out.length = input.length →
      (∀ v : Nat, v < (cs_K input + 1).toNat →
        temp.getD v 0 = shiftCum input v
          - (cntSh (cs_shift input) v (input.drop k) : Int)) →
      (∀ v : Nat, v < (cs_K input + 1).toNat → ∀ p : Nat, p < input.length →
        shiftCum input v - (cntSh (cs_shift input) v (input.drop k) : Int) ≤ (p:Int) →
        (p:Int) < shiftCum input v → out.getD p 0 = (v:Int) - cs_shift input) →
      ∃ temp2 out2, csLoop3 getf setf input (cs_shift input) k temp out
          = Except.ok (temp2, out2) ∧
        out2.length = input.length ∧ CsOutChar input out2
  | 0, temp, out, hk, htlen, holen, htchar, hochar => by
    refine ⟨temp, out, rfl, holen, ?_⟩
    intro v hv p hp h1 h2
    refine hochar v hv p hp ?_ h2
    rw [List.drop_zero]
    exact h1
  | k+1, temp, out, hk, htlen, holen, htchar, hochar => by
    have hklt : k < input.length := by omega
    set sh := cs_shift input with hshdef
    set e := input.getD k 0 with hedef
    have he : e ∈ input := by
      rw [List.mem_iff_getElem]
      exact ⟨k, by omega, (getD_eq_getElem_of_lt input (by omega)).symm⟩
    obtain ⟨hb1, hb2⟩ := cs_shifted_bounds he
    have hKpos := cs_K_nonneg hne
    set v0 := (e + sh).toNat with hv0def
    have hv0lt : v0 < (cs_K input + 1).toNat := by omega
    have hdropk : input.drop k = e :: input.drop (k+1) := by
      rw [List.drop_eq_getElem_cons hklt]
      congr 1
      exact (getD_eq_getElem_of_lt input hklt).symm
    have hcnt : ∀ v : Nat, cntSh sh v (input.drop k)
        = cntSh sh v (input.drop (k+1)) + (if e + sh = (v:Int) then 1 else 0) := by
      intro v
      rw [hdropk, cntSh_cons]
    have hcnt_le : (cntSh sh v0 (input.drop k) : Int) ≤ shiftCount input v0 := by
      have h1 := cntSh_le_of_sublist sh v0 (List.drop_sublist k input)
      unfold shiftCount
      rw [hshdef]
      exact_mod_cast h1
    have htv : temp.getD v0 0 = shiftCum input v0
        - (cntSh sh v0 (input.drop (k+1)) : Int) := htchar v0 hv0lt
    set tv := temp.getD v0 0 with htvdef
    have hplo := shiftCum_sub_nonneg input v0
    have hcnt0 := hcnt v0
    rw [if_pos (by omega)] at hcnt0
    have htv1 : 1 ≤ tv := by omega
    have htvN : tv ≤ (input.length : Int) := by
      have h1 : shiftCum input v0 ≤ shiftCum input ((cs_K input + 1).toNat - 1) :=
        shiftCum_mono input (by omega)
      have h2 := shiftCum_last hne
      have h3 : (0:Int) ≤ (cntSh sh v0 (input.drop (k+1)) : Int) := by positivity
      omega
    set pos := (tv - 1).toNat with hposdef
    have hpos : (pos : Int) = tv - 1 := by omega
    have hposlt : pos < input.length := by omega
    have hge1 : getf input (k : Int) = Except.ok e := by
      rw [hg.1 input (k : Int) (by omega) (by omega), show ((k:Int)).toNat = k by omega]
    have hge2 : getf temp (e + sh) = Except.ok tv := by
      rw [hg.1 temp (e + sh) (by omega) (by omega), ← hv0def, htvdef]
    have hse1 : setf out (tv - 1) e = Except.ok (out.set pos e) := by
      rw [hg.2 out (tv - 1) e (by omega) (by omega), ← hposdef]
    have hse2 : setf temp (e + sh) (tv - 1) = Except.ok (temp.set v0 (tv - 1)) := by
      rw [hg.2 temp (e + sh) _ (by omega) (by omega), ← hv0def]
    have htchar2 : ∀ v : Nat, v < (cs_K input + 1).toNat →
        (temp.set v0 (tv - 1)).getD v 0 = shiftCum input v
          - (cntSh sh v (input.drop k) : Int) := by
      intro v hv
      by_cases hvv : v = v0
      · subst hvv
        rw [getD_set_self temp v0 _ (by omega), hcnt v0, if_pos (by omega)]
        push_cast
        omega
      · rw [getD_set_ne temp _ (show v0 ≠ v by omega), hcnt v, if_neg (by omega),
          htchar v hv]
        push_cast
        omega
    have hochar2 : ∀ v : Nat, v < (cs_K input + 1).toNat → ∀ p : Nat, p < input.length →
        shiftCum input v - (cntSh sh v (input.drop k) : Int) ≤ (p:Int) →
        (p:Int) < shiftCum input v →
        (out.set pos e).getD p 0 = (v:Int) - sh := by
      intro v hv p hp h1 h2
      by_cases hvv : v = v0
      · subst hvv
        by_cases hpp : p = pos
        · subst hpp
          rw [getD_set_self out pos e (by omega)]
          omega
        · rw [getD_set_ne out _ (show pos ≠ p by omega)]
          refine hochar v0 hv0lt p hp ?_ h2
          rw [hcnt v0, if_pos (by omega)] at h1
          push_cast at h1 ⊢
          omega
      · have hcntv : (cntSh sh v (input.drop k) : Int) ≤ shiftCount input v := by
          have hs1 := cntSh_le_of_sublist sh v (List.drop_sublist k input)
          unfold shiftCount
          rw [hshdef]
          exact_mod_cast hs1
        have hdisj : p ≠ pos := by
          intro hpp
          subst hpp
          rcases Nat.lt_or_ge v v0 with hlt | hge
          · have hm : shiftCum input v ≤ shiftCum input (v0 - 1) :=
              shiftCum_mono input (by omega)
            rw [shiftCum_pred input (by omega)] at hm
            omega
          · have hm : shiftCum input v0 ≤ shiftCum input (v - 1) :=
              shiftCum_mono input (by omega)
            rw [shiftCum_pred input (by omega)] at hm
            omega
        rw [getD_set_ne out _ (show pos ≠ p by omega)]
        refine hochar v hv p hp ?_ h2
        have h1b := h1
        rw [hcnt v, if_neg (by omega)] at h1b
        push_cast at h1b ⊢
        omega
    obtain ⟨temp2, out2, hrun, holen2, hchar2⟩ := csLoop3_spec getf setf hg input hne
      k (temp.set v0 (tv - 1)) (out.set pos e) (by omega) (by simp [htlen])
      (by simp [holen]) htchar2 hochar2
    refine ⟨temp2, out2, ?_, holen2, hchar2⟩
    simp only [csLoop3, hge1, hge2, hse1, hse2]
    exact hrun

theorem getD_replicate {n v : Nat} : (List.replicate n (0:Int)).getD v 0 = 0 := by
  by_cases h : v < n
  · rw [List.getD_eq_getElem _ _ (by simpa using h), List.getElem_replicate]
  · rw [List.getD_eq_default _ _ (by simpa using h)]

/-- `counting_sort` (with any well-behaved accessor pair) succeeds and its
output satisfies the block characterisation `CsOutChar`. -/
theorem counting_sortG_spec (getf : List Int → Int → Except PyErr Int)
    (setf : List Int → Int → Int → Except PyErr (List Int))
    (hg : GoodAcc getf setf) (input : List Int) :
    ∃ out, counting_sortG getf setf input = Except.ok out ∧
      out.length = input.length ∧ CsOutChar input out := by
  by_cases hemp : input.length = 0
  · refine ⟨[], ?_, by simp [hemp], ?_⟩
    · unfold counting_sortG
      rw [if_pos hemp]
    · intro v hv p hp h1 h2
      omega
  · have hne : input ≠ [] := fun h => hemp (by rw [h]; rfl)
    have hKpos := cs_K_nonneg hne
    have hLTK : (cs_K input + 1).toNat = (cs_K input).toNat + 1 := by omega
    have hvals : ∀ x ∈ input, 0 ≤ x + cs_shift input ∧
        x + cs_shift input < (((cs_K input + 1).toNat : Nat) : Int) := by
      intro x hx
      have := cs_shifted_bounds hx
      omega
    obtain ⟨t1, hrun1, ht1len, ht1char⟩ := csLoop1_spec getf setf hg input
      (cs_shift input) ((cs_K input + 1).toNat) hvals input.length 0
      (List.replicate ((cs_K input + 1).toNat) 0) (by simp) (by omega)
    have ht1val : ∀ v : Nat, v < (cs_K input + 1).toNat →
        t1.getD v 0 = shiftCount input v := by
      intro v hv
      rw [ht1char v hv, List.drop_zero, getD_replicate]
      unfold shiftCount
      omega
    have hpsum : ∀ v : Nat, v < (cs_K input + 1).toNat →
        psum t1 v = shiftCum input v := by
      intro v
      induction v with
      | zero =>
        intro hv
        rw [show psum t1 0 = t1.getD 0 0 from rfl, ht1val 0 hv, shiftCum_zero]
      | succ v ih =>
        intro hv
        rw [show psum t1 (v+1) = psum t1 v + t1.getD (v+1) 0 from rfl,
          ih (by omega), ht1val (v+1) hv, shiftCum_succ]
    obtain ⟨t2, hrun2, ht2len, ht2char⟩ := csLoop2_spec getf setf hg t1
      (cs_K input).toNat 1 t1 rfl (le_refl 1) (by omega)
      (by
        intro v hv
        rw [show v = 0 by omega]
        rfl)
      (fun v _ _ => rfl)
    obtain ⟨t3, out, hrun3, houtlen, hchar⟩ := csLoop3_spec getf setf hg input hne
      input.length t2 (List.replicate input.length 0) (le_refl _)
      (by rw [ht2len, ht1len]) (by simp)
      (by
        intro v hv
        rw [List.drop_length]
        rw [ht2char v (by omega), hpsum v hv]
        unfold cntSh
        simp)
      (by
        intro v hv p hp h1 h2
        rw [List.drop_length] at h1
        unfold cntSh at h1
        simp at h1
        omega)
    refine ⟨out, ?_, houtlen, hchar⟩
    unfold counting_sortG
    rw [if_neg hemp]
    simp only [hrun1, hrun2, hrun3]

/-- Two lists satisfying the block characterisation agree everywhere. -/
theorem csOut_unique {input out1 out2 : List Int} (hne : input ≠ [])
    (h1 : out1.length = input.length) (h2 : out2.length = input.length)
    (c1 : CsOutChar input out1) (c2 : CsOutChar input out2) : out1 = out2 := by
  apply List.ext_getElem (by omega)
  intro p hp1 hp2
  have hp : p < input.length := by omega
  obtain ⟨v, hv, hlo, hhi⟩ := cs_coverage hne hp
  rw [← getD_eq_getElem_of_lt out1 hp1, ← getD_eq_getElem_of_lt out2 hp2,
    c1 v hv p hp hlo hhi, c2 v hv p hp hlo hhi]

/-- The block characterisation implies sortedness. -/
theorem csOut_sorted {input out : List Int} (hne : input ≠ [])
    (hlen : out.length = input.length) (hchar : CsOutChar input out) :
    List.Sorted (· ≤ ·) out := by
  rw [List.Sorted, List.pairwise_iff_getElem]
  intro p q hp hq hpq
  have hp' : p < input.length := by omega
  have hq' : q < input.length := by omega
  obtain ⟨v1, hv1, hlo1, hhi1⟩ := cs_coverage hne hp'
  obtain ⟨v2, hv2, hlo2, hhi2⟩ := cs_coverage hne hq'
  have hvle : v1 ≤ v2 := by
    by_contra hcon
    have hm : shiftCum input v2 ≤ shiftCum input (v1 - 1) :=
      shiftCum_mono input (by omega)
    rw [shiftCum_pred input (by omega)] at hm
    omega
  rw [← getD_eq_getElem_of_lt out hp, ← getD_eq_getElem_of_lt out hq,
    hchar v1 hv1 p hp' hlo1 hhi1, hchar v2 hv2 q hq' hlo2 hhi2]
  omega

theorem count_eq_countP_pos (l : List Int) (w : Int) :
    l.count w = List.countP (fun p => decide (l.getD p 0 = w)) (List.range l.length) := by
  have hmap : l = (List.range l.length).map (fun p => l.getD p 0) := by
    apply List.ext_getElem
    · simp
    · intro k h1 h2
      rw [List.getElem_map, List.getElem_range, ← getD_eq_getElem_of_lt l h1]
  conv_lhs => rw [hmap]
  rw [List.count_eq_countP, List.countP_map]
  apply List.countP_congr
  intro p hp
  simp

theorem countP_interval : ∀ (n : Nat) (lo hi : Int), 0 ≤ lo → lo ≤ hi → hi ≤ (n : Int) →
    List.countP (fun p : Nat => decide (lo ≤ (p:Int) ∧ (p:Int) < hi)) (List.range n)
      = (hi - lo).toNat
  | 0, lo, hi, h0, hlh, hhn => by
    rw [show (hi - lo).toNat = 0 by omega]
    simp
  | n+1, lo, hi, h0, hlh, hhn => by
    rw [List.range_succ, List.countP_append]
    by_cases hh : hi ≤ (n : Int)
    · rw [countP_interval n lo hi h0 hlh hh]
      have hlast : List.countP (fun p : Nat => decide (lo ≤ (p:Int) ∧ (p:Int) < hi)) [n] = 0 := by
        simp only [List.countP_cons, List.countP_nil]
        rw [if_neg (by simp; omega)]
      rw [hlast]
      omega
    · have hh2 : hi = (n : Int) + 1 := by omega
      by_cases hlo : lo ≤ (n : Int)
      · have hcg : List.countP (fun p : Nat => decide (lo ≤ (p:Int) ∧ (p:Int) < hi)) (List.range n)
            = List.countP (fun p : Nat => decide (lo ≤ (p:Int) ∧ (p:Int) < (n:Int))) (List.range n) := by
          apply List.countP_congr
          intro p hp
          rw [List.mem_range] at hp
          simp only [decide_eq_true_eq]
          omega
        rw [hcg, countP_interval n lo (n : Int) h0 hlo (le_refl _)]
        have hlast : List.countP (fun p : Nat => decide (lo ≤ (p:Int) ∧ (p:Int) < hi)) [n] = 1 := by
          simp only [List.countP_cons, List.countP_nil]
          rw [if_pos (by simp; omega)]
        rw [hlast]
        omega
      · have hzero : List.countP (fun p : Nat => decide (lo ≤ (p:Int) ∧ (p:Int) < hi))
            (List.range n) = 0 := by
          rw [List.countP_eq_zero]
          intro p hp
          rw [List.mem_range] at hp
          simp only [decide_eq_true_eq]
          omega
        have hlast : List.countP (fun p : Nat => decide (lo ≤ (p:Int) ∧ (p:Int) < hi)) [n] = 0 := by
          simp only [List.countP_cons, List.countP_nil]
          rw [if_neg (by simp; omega)]
        rw [hzero, hlast]
        omega

/-- The block characterisation fixes all multiplicities: the output holds
exactly the multiset of the input. -/
theorem csOut_count {input out : List Int} (hne : input ≠ [])
    (hlen : out.length = input.length) (hchar : CsOutChar input out) (w : Int) :
    out.count w = input.count w := by
  have hKpos := cs_K_nonneg hne
  by_cases hw : 0 ≤ w + cs_shift input ∧ w + cs_shift input ≤ cs_K input
  · set vw := (w + cs_shift input).toNat with hvw
    have hvwlt : vw < (cs_K input + 1).toNat := by omega
    have hcount : (input.count w : Int) = shiftCount input vw := by
      rw [List.count_eq_countP]
      unfold shiftCount cntSh
      congr 1
      apply List.countP_congr
      intro y _
      simp only [beq_iff_eq, decide_eq_true_eq]
      omega
    have hsub := shiftCum_sub_nonneg input vw
    have hcnt_nn := shiftCount_nonneg input vw
    have hcum_le : shiftCum input vw ≤ (input.length : Int) := by
      have h1 : shiftCum input vw ≤ shiftCum input ((cs_K input + 1).toNat - 1) :=
        shiftCum_mono input (by omega)
      have h2 := shiftCum_last hne
      omega
    have hpos : out.count w = List.countP
        (fun p : Nat => decide (shiftCum input vw - shiftCount input vw ≤ (p:Int) ∧
          (p:Int) < shiftCum input vw)) (List.range input.length) := by
      rw [count_eq_countP_pos, hlen]
      apply List.countP_congr
      intro p hp
      rw [List.mem_range] at hp
      simp only [decide_eq_true_eq]
      constructor
      · intro hval
        obtain ⟨v, hv, hlo, hhi⟩ := cs_coverage hne hp
        have := hchar v hv p hp hlo hhi
        have hveq : v = vw := by omega
        subst hveq
        exact ⟨hlo, hhi⟩
      · intro hb
        rw [hchar vw hvwlt p hp hb.1 hb.2]
        omega
    rw [hpos, countP_interval input.length _ _ (by omega) (by omega) (by omega)]
    omega
  · have ho : out.count w = 0 := by
      rw [List.count_eq_zero]
      intro hmem
      rw [List.mem_iff_getElem] at hmem
      obtain ⟨p, hp, hpv⟩ := hmem
      have hp' : p < input.length := by omega
      obtain ⟨v, hv, hlo, hhi⟩ := cs_coverage hne hp'
      have := hchar v hv p hp' hlo hhi
      rw [← getD_eq_getElem_of_lt out hp] at hpv
      omega
    have hi : input.count w = 0 := by
      rw [List.count_eq_zero]
      intro hmem
      have := cs_shifted_bounds hmem
      omega
    rw [hi, ho]

/-- `counting_sort` (Python semantics) succeeds and returns a sorted
permutation of its input. -/
theorem counting_sort_spec (a : List Int) :
    ∃ out, counting_sort a = Except.ok out ∧ out.Perm a ∧ List.Sorted (· ≤ ·) out := by
  obtain ⟨out, hrun, hlen, hchar⟩ := counting_sortG_spec pyGet pySet good_py a
  by_cases hne : a = []
  · subst hne
    exact ⟨[], by rfl, by simp, by simp⟩
  · exact ⟨out, hrun, List.perm_iff_count.mpr (fun w => csOut_count hne hlen hchar w),
      csOut_sorted hne hlen hchar⟩

/-- The strict-index and Python-index runs of `counting_sort` agree. -/
theorem counting_sortS_eq_counting_sort (a : List Int) :
    counting_sortS a = counting_sort a := by
  by_cases hne : a = []
  · subst hne
    rfl
  · obtain ⟨outE, hrunE, hlenE, hcharE⟩ := counting_sortG_spec pyGet pySet good_py a
    obtain ⟨outS, hrunS, hlenS, hcharS⟩ := counting_sortG_spec pyGetS pySetS good_pyS a
    unfold counting_sortS counting_sort
    rw [hrunE, hrunS, csOut_unique hne hlenS hlenE hcharS hcharE]

/-- `quick_sort` with default arguments succeeds and returns a sorted
permutation, for every pivot oracle. -/
theorem quick_sortD_spec (a : List Int) (σ : List Bool → Nat) :
    ∃ out, quick_sortD a σ = Except.ok out ∧ out.Perm a ∧ List.Sorted (· ≤ ·) out := by
  obtain ⟨a3, hrun, hlen, hframe, hpermseg, hsorted, hperm⟩ :=
    quick_sort_spec ((a.length : Int) - 1 - 0).toNat a 0 ((a.length : Int) - 1) σ []
      (le_refl _) (le_refl 0) (by omega)
  refine ⟨a3, hrun, hperm, ?_⟩
  have hseg : seg a3 0 ((a.length : Int) - 1) = a3 := by
    rw [show (a.length : Int) = (a3.length : Int) by rw [hlen], seg_all]
  rwa [hseg] at hsorted

/-- C1: each of the five sorting functions (with default `start`/`end` and
an arbitrary pivot oracle for `quick_sort`) returns a list with the same
multiset of values as its input, arranged in non-decreasing order. -/
theorem C1_five_sorts_sorted_and_multiset_preserving :
    (∀ a : List Int, ((insertion_sort a : List Int) : Multiset Int) = (a : Multiset Int) ∧
      List.Sorted (· ≤ ·) (insertion_sort a)) ∧
    (∀ a : List Int, ((merge_sort a : List Int) : Multiset Int) = (a : Multiset Int) ∧
      List.Sorted (· ≤ ·) (merge_sort a)) ∧
    (∀ a : List Int, ((heap_sort a : List Int) : Multiset Int) = (a : Multiset Int) ∧
      List.Sorted (· ≤ ·) (heap_sort a)) ∧
    (∀ (a : List Int) (σ : List Bool → Nat), ∃ out,
      quick_sortD a σ = Except.ok out ∧ ((out : List Int) : Multiset Int) = (a : Multiset Int) ∧
      List.Sorted (· ≤ ·) out) ∧
    (∀ a : List Int, ∃ out, counting_sort a = Except.ok out ∧
      ((out : List Int) : Multiset Int) = (a : Multiset Int) ∧ List.Sorted (· ≤ ·) out) := by
  refine ⟨?_, ?_, ?_, ?_, ?_⟩
  · intro a
    exact ⟨Multiset.coe_eq_coe.mpr (insertion_sort_spec a).1, (insertion_sort_spec a).2⟩
  · intro a
    exact ⟨Multiset.coe_eq_coe.mpr (merge_sort_spec a).1, (merge_sort_spec a).2⟩
  · intro a
    exact ⟨Multiset.coe_eq_coe.mpr (heap_sort_spec a).1, (heap_sort_spec a).2⟩
  · intro a σ
    obtain ⟨out, h1, h2, h3⟩ := quick_sortD_spec a σ
    exact ⟨out, h1, Multiset.coe_eq_coe.mpr h2, h3⟩
  · intro a
    obtain ⟨out, h1, h2, h3⟩ := counting_sort_spec a
    exact ⟨out, h1, Multiset.coe_eq_coe.mpr h2, h3⟩

/-- C2: `heap_sort` is claimed to sort in place and return the same
sequence, but on `[2, 3, 0, 1]` the caller's list object ends up as
`[1, 2, 0, 3]` (not sorted) while a freshly-built list `[0, 1, 2, 3]` is
returned: the extraction loop rebinds `array` to
`_max_heapify(array[:i], 0) + old_array[i:]`, so after the first iteration
the caller's object is no longer updated. -/
theorem C2_heap_sort_not_in_place :
    heap_sortM [2, 3, 0, 1] = ([1, 2, 0, 3], [0, 1, 2, 3]) ∧
    ¬ List.Sorted (· ≤ ·) [(1:Int), 2, 0, 3] ∧
    ([1, 2, 0, 3] : List Int) ≠ [0, 1, 2, 3] := by
  refine ⟨?_, by decide, by decide⟩
  simp [heap_sortM, heapExtractLoop, _build_max_heap, _build_max_heapGo, _max_heapify,
    heapifyLargest, swapNat]

/-- C3 counterexample: in the merge step with both heads equal (here both
`1`, neither half exhausted), the code appends the right half's element and
advances the right cursor, not the left one as claimed. -/
theorem C3_counterexample_right_wins_ties :
    mergeStep [1] [1] 0 0 = (1, 0, 1) ∧ ((1, 0, 1) : Int × Nat × Nat) ≠ (1, 1, 0) := by
  decide

/-- C3 (amended): whenever neither half is exhausted and the current heads
are equal, the right half's element is appended and the right cursor
advances before the left one. -/
theorem C3_amended_tie_goes_right (ll rl : List Int) (left right : Nat)
    (h1 : left ≠ ll.length) (h2 : right ≠ rl.length)
    (h3 : ll.getD left 0 = rl.getD right 0) :
    mergeStep ll rl left right = (rl.getD right 0, left, right + 1) := by
  unfold mergeStep
  rw [if_neg h1, if_neg h2, if_neg (by omega)]

theorem C3_amended_witness :
    (0 : Nat) ≠ ([(1:Int)] : List Int).length ∧
    mergeStep [1] [1] 0 0 = (([(1:Int)] : List Int).getD 0 0, 0, 0 + 1) :=
  ⟨by decide, C3_amended_tie_goes_right [1] [1] 0 0 (by decide) (by decide) (by decide)⟩

/-- C4 counterexample: `quick_sort` on a two-element list with
`start = 5`, `end = 2` (both outside `[0, n-1]` and `start > end + 1`)
returns normally with the list unchanged instead of signalling an
invalid-argument error. -/
theorem C4_counterexample_no_validation :
    quick_sort [1, 0] 5 2 (fun _ => 0) [] = Except.ok [1, 0] := by
  rw [quick_sort, dif_neg (by norm_num)]

/-- C4 (amended): `quick_sort` performs no argument validation: whenever
`start ≥ end` — however far outside `[0, n-1]` — it returns the sequence
unchanged with no error, and for an out-of-range window with
`start < end` it proceeds to access the sequence, surfacing an index error
at the first out-of-range access rather than an invalid-argument signal. -/
theorem C4_amended_no_validation :
    (∀ (a : List Int) (s e : Int) (σ : List Bool → Nat) (path : List Bool), ¬ s < e →
      quick_sort a s e σ path = Except.ok a) ∧
    quick_sort [5, 3] 0 3 (fun _ => 0) [] = Except.error PyErr.indexError := by
  constructor
  · intro a s e σ path h
    rw [quick_sort, dif_neg h]
  · have hp : _partition [5, 3] 0 3 ((fun (_ : List Bool) => 0) []) =
        Except.error PyErr.indexError := by rfl
    rw [quick_sort, dif_pos (by norm_num)]
    split
    · rename_i err heq
      rw [hp] at heq
      simp only [Except.error.injEq] at heq
      rw [← heq]
    · rename_i a1' piv' heq
      rw [hp] at heq
      cases heq

theorem C4_amended_witness :
    ¬ ((5:Int) < 2) ∧ quick_sort [1, 0] 5 2 (fun _ => 0) [] = Except.ok [1, 0] :=
  ⟨by decide, C4_amended_no_validation.1 [1, 0] 5 2 (fun _ => 0) [] (by decide)⟩

/-- C5: for a valid sub-range `0 ≤ start ≤ end ≤ n-1` and any pivot
oracle, `quick_sort` succeeds, leaves every position outside
`[start, end]` unchanged, and rearranges positions `[start, end]` into a
sorted permutation of the values they previously held. -/
theorem C5_quick_sort_subrange (a : List Int) (s e : Int) (σ : List Bool → Nat)
    (h0 : 0 ≤ s) (hse : s ≤ e) (he : e ≤ (a.length : Int) - 1) :
    ∃ out, quick_sort a s e σ [] = Except.ok out ∧ out.length = a.length ∧
      (∀ k : Nat, k < a.length → ((k:Int) < s ∨ e < (k:Int)) →
        out.getD k 0 = a.getD k 0) ∧
      (seg out s e).Perm (seg a s e) ∧ List.Sorted (· ≤ ·) (seg out s e) := by
  obtain ⟨a3, h1, h2, h3, h4, h5, h6⟩ := quick_sort_spec (e - s).toNat a s e σ []
    (le_refl _) h0 (by omega)
  exact ⟨a3, h1, h2, h3, h4, h5⟩

theorem C5_witness :
    ∃ out, quick_sort [9, 1, 8, 2, 7, 3] 1 4 (fun _ => 2) [] = Except.ok out ∧
      out.length = ([9, 1, 8, 2, 7, 3] : List Int).length := by
  obtain ⟨out, h1, h2, h3⟩ := C5_quick_sort_subrange [9, 1, 8, 2, 7, 3] 1 4 (fun _ => 2)
    (by decide) (by decide) (by decide)
  exact ⟨out, h1, h2⟩

/-- C6: on a valid range and for every pivot oracle value, `_partition`
returns a pivot index `i` in `[start, end]` with everything strictly below
`i` at most the pivot value, everything strictly above it greater than the
pivot value, and positions outside `[start, end]` unchanged. -/
theorem C6_partition_correct (a : List Int) (s e : Int) (r : Nat)
    (h0 : 0 ≤ s) (hse : s ≤ e) (he : e ≤ (a.length : Int) - 1) :
    ∃ a2 i, _partition a s e r = Except.ok (a2, i) ∧ s ≤ i ∧ i ≤ e ∧
      a2.length = a.length ∧
      (∀ k : Nat, s ≤ (k:Int) → (k:Int) < i → a2.getD k 0 ≤ getI a2 i) ∧
      (∀ k : Nat, i < (k:Int) → (k:Int) ≤ e → getI a2 i < a2.getD k 0) ∧
      (∀ k : Nat, k < a.length → ((k:Int) < s ∨ e < (k:Int)) →
        a2.getD k 0 = a.getD k 0) := by
  obtain ⟨a2, piv, h1, h2, h3, h4, h5, h6, h7, _⟩ := partition_spec a s e r h0 hse (by omega)
  exact ⟨a2, piv, h1, h2, h3, h4, h6, h7, h5⟩

theorem C6_witness :
    ∃ a2 i, _partition [3, 1, 2] 0 2 0 = Except.ok (a2, i) ∧ 0 ≤ i ∧ i ≤ 2 := by
  obtain ⟨a2, i, h1, h2, h3, _⟩ := C6_partition_correct [3, 1, 2] 0 2 0
    (by decide) (by decide) (by decide)
  exact ⟨a2, i, h1, h2, h3⟩

/-- C7: for non-empty input, `counting_sort`'s `shift` equals
`max(0, -min)`, `K` equals `max + shift`, the count array has exactly
`K + 1` zero-initialised cells, and every shifted value lies in `[0, K]`. -/
theorem C7_counting_sort_shift_K (input : List Int) (hne : input ≠ []) :
    cs_shift input = max 0 (-(pyMin input)) ∧
    cs_K input = pyMax input + cs_shift input ∧
    (List.replicate (cs_K input + 1).toNat (0:Int)).length = (cs_K input).toNat + 1 ∧
    (∀ c ∈ List.replicate (cs_K input + 1).toNat (0:Int), c = 0) ∧
    (∀ x ∈ input, 0 ≤ x + cs_shift input ∧ x + cs_shift input ≤ cs_K input) := by
  have hK := cs_K_nonneg hne
  refine ⟨cs_shift_eq_max input, rfl, ?_, ?_, fun x hx => cs_shifted_bounds hx⟩
  · rw [List.length_replicate]
    omega
  · intro c hc
    exact List.eq_of_mem_replicate hc

theorem C7_witness :
    (([2, -3] : List Int) ≠ []) ∧ cs_shift [2, -3] = max 0 (-(pyMin [2, -3])) :=
  ⟨by decide, (C7_counting_sort_shift_K [2, -3] (by decide)).1⟩

/-- C8: `merge_sort` never mutates its argument: in the state-passing
model, the caller's list is element-wise unchanged when the call returns. -/
theorem C8_merge_sort_pure (a : List Int) : (merge_sortM a).1 = a :=
  merge_sortM_pure a

/-- C9: on every input, running `counting_sort` with strict bounds-checked
indexing gives the same (successful) result as running it with Python's
wrapping indexing: every auxiliary-array index the code uses is within
bounds, so the out-of-bounds branch of the embedding is unreachable. -/
theorem C9_counting_sort_indices_in_bounds (a : List Int) :
    counting_sortS a = counting_sort a ∧ ∃ out, counting_sort a = Except.ok out := by
  refine ⟨counting_sortS_eq_counting_sort a, ?_⟩
  obtain ⟨out, h1, _⟩ := counting_sort_spec a
  exact ⟨out, h1⟩

/-- C10: whenever `_max_heapify` recurses, it recurses at the computed
`largest` child index, which is strictly greater than `i` and strictly
less than the heap length, so the recursion is well-founded. -/
theorem C10_max_heapify_recursion_bound (heap : List Int) (i : Nat)
    (h : heapifyLargest heap i ≠ i) :
    i < heapifyLargest heap i ∧ heapifyLargest heap i < heap.length ∧
    _max_heapify heap i
      = _max_heapify (swapNat heap i (heapifyLargest heap i)) (heapifyLargest heap i) := by
  obtain ⟨h1, h2⟩ := heapifyLargest_bound heap i h
  refine ⟨h1, h2, ?_⟩
  conv_lhs => rw [_max_heapify]
  rw [dif_pos h]

theorem C10_witness :
    heapifyLargest [0, 1] 0 ≠ 0 ∧
    (0 < heapifyLargest [0, 1] 0 ∧ heapifyLargest [0, 1] 0 < ([0, 1] : List Int).length ∧
      _max_heapify [0, 1] 0 = _max_heapify
        (swapNat [0, 1] 0 (heapifyLargest [0, 1] 0)) (heapifyLargest [0, 1] 0)) :=
  ⟨by decide, C10_max_heapify_recursion_bound [0, 1] 0 (by decide)⟩
